import Mathlib

/-!
Verification of the `prefix-searcher` trie library.

The C++ sources (`src/trie/Node.hpp`, `src/trie/Trie.cpp`) are shallowly
embedded below.  Byte strings are modelled as `List Nat` (each element a byte
value), original string indices as `Nat`, and the sentinel
`INVALID_STRING_INDEX` as `Option.none`.  A `Node` stores its children as an
association list `List (Nat × Node)` in insertion order, mirroring the
`std::vector<KeyChildNodePair>` member `m_keysAndChildNodes`, and an optional
terminal string index mirroring `m_stringIndex`.
-/

/-- A trie vertex: sparse association list from byte value to child node
(`m_keysAndChildNodes`, kept in insertion order exactly as the C++ vector),
plus an optional terminal string index (`m_stringIndex`, with
`none` standing for `INVALID_STRING_INDEX`). -/
inductive Node : Type where
  | mk (keysAndChildNodes : List (Nat × Node)) (stringIndex : Option Nat)

/-- The children association list of a node. -/
def Node.keysAndChildNodes : Node → List (Nat × Node)
  | .mk cs _ => cs

/-- The optional terminal string index of a node (`Node::getStringIndex`,
with `none` for `INVALID_STRING_INDEX`). -/
def Node.stringIndex : Node → Option Nat
  | .mk _ si => si

/-- A freshly default-constructed node: no children, no terminal index. -/
def Node.empty : Node := .mk [] none

/-- `Node::getChildNode`: first entry of the association list carrying the
given key (`findKey` uses `std::find_if`, i.e. first match). -/
def Node.getChildNode (n : Node) (key : Nat) : Option Node :=
  (n.keysAndChildNodes.find? (fun q => q.1 == key)).map Prod.snd

/-- Helper for `Node::setChildNode`: replace the first entry carrying `key`
(the C++ `it->second = std::move(node)`), or append a new entry at the end
(`emplace_back`) if no entry carries `key`. -/
def setChildList (cs : List (Nat × Node)) (key : Nat) (node : Node) :
    List (Nat × Node) :=
  match cs with
  | [] => [(key, node)]
  | (k, c) :: rest =>
      if k = key then (key, node) :: rest else (k, c) :: setChildList rest key node

/-- `Node::setChildNode`. -/
def Node.setChildNode : Node → Nat → Node → Node
  | .mk cs si, key, node => .mk (setChildList cs key node) si

/-- `Node::setStringIndex`. -/
def Node.setStringIndex : Node → Nat → Node
  | .mk cs _, i => .mk cs (some i)

/-- `Node::getDescendantNodeForPrefix`: walk the children byte by byte,
short-circuiting to `none` as soon as a required child is absent. -/
def Node.getDescendantNodeForPrefix : Node → List Nat → Option Node
  | n, [] => some n
  | n, b :: rest =>
      match n.getChildNode b with
      | none => none
      | some c => c.getDescendantNodeForPrefix rest

mutual

/-- `Node::collectStringIndices`: append this node's terminal index (if any),
then recurse into every child in association-list order. -/
def Node.collectStringIndices : Node → List Nat
  | .mk cs si => (si.elim [] (fun i => [i])) ++ Node.collectStringIndicesList cs

/-- The loop over `m_keysAndChildNodes` inside `Node::collectStringIndices`. -/
def Node.collectStringIndicesList : List (Nat × Node) → List Nat
  | [] => []
  | (_, c) :: rest => c.collectStringIndices ++ Node.collectStringIndicesList rest

end

/-- The insertion loop of `Trie::insertString` seen from a node: walk the
byte list via `Node::getOrCreateChildNode` (existing children are reused in
place, missing children are appended as fresh empty nodes) and set the string
index at the final node. -/
def Node.insertString : Node → List Nat → Nat → Node
  | n, [], i => n.setStringIndex i
  | n, b :: rest, i =>
      n.setChildNode b (((n.getChildNode b).getD Node.empty).insertString rest i)

/-- Semantic observer: the terminal index stored at the end of the exact path
`s`, i.e. the composite of `Node::getDescendantNodeForPrefix` and
`Node::getStringIndex`. -/
def Node.find (n : Node) (s : List Nat) : Option Nat :=
  (n.getDescendantNodeForPrefix s).bind Node.stringIndex

/-- Well-formedness: the keys of every association list in the tree are
pairwise distinct.  This holds for every node the library ever builds, since
`setChildNode` replaces an existing key rather than duplicating it. -/
inductive Node.WF : Node → Prop where
  | mk (cs : List (Nat × Node)) (si : Option Nat) :
      (cs.map Prod.fst).Nodup →
      (∀ k c, (k, c) ∈ cs → Node.WF c) →
      Node.WF (.mk cs si)

/-! ## The `Trie` class -/

/-- A `Trie` in normal (fully constructed) state: it owns a root node
(`m_rootNode`, non-null).  The moved-from state that the merge constructor
leaves behind in donor tries is modelled separately, see `CxxTrie` below. -/
structure Trie : Type where
  rootNode : Node

/-- `Trie::Trie()`: an empty root node. -/
def Trie.empty : Trie := ⟨Node.empty⟩

/-- `Trie::searchPrefix`: walk to the descendant node denoting the prefix;
if absent return the empty result, else collect all terminal indices of its
subtree. -/
def Trie.searchPrefix (T : Trie) (p : List Nat) : List Nat :=
  match T.rootNode.getDescendantNodeForPrefix p with
  | none => []
  | some d => d.collectStringIndices

/-- `Trie::insertString(strings, stringIndex, ignorePrefixLength)`: insert
the byte sequence of `strings[stringIndex]`, skipping the first
`ignorePrefixLength` bytes, and mark the final node with `stringIndex`. -/
def Trie.insertString (T : Trie) (strings : List (List Nat))
    (stringIndex ignorePrefixLength : Nat) : Trie :=
  ⟨T.rootNode.insertString ((strings.getD stringIndex []).drop ignorePrefixLength)
    stringIndex⟩

/-- The sequential construction path of
`Trie::Trie(const std::vector<std::string>&, size_t)`: insert every string in
input order. -/
def Trie.ofStringsSequential (strings : List (List Nat)) : Trie :=
  (List.range strings.length).foldl
    (fun T i => T.insertString strings i 0) Trie.empty

/-- `Trie::Trie(strings, stringIndices, ignorePrefixLength)`: insert the
selected strings in the given order, skipping the shared prefix. -/
def Trie.ofStringIndices (strings : List (List Nat)) (stringIndices : List Nat)
    (ignorePrefixLength : Nat) : Trie :=
  stringIndices.foldl (fun T i => T.insertString strings i ignorePrefixLength)
    Trie.empty

/-- The merge constructor `Trie::Trie(tries, trieBeginIndex, keys)`, with the
run of donor tries passed as an aligned list: attach each donor's root under
its key via `setChildNode` on a fresh root. -/
def Trie.ofTries (keys : List Nat) (tries : List Trie) : Trie :=
  ⟨(keys.zip tries).foldl
    (fun r q => r.setChildNode q.1 q.2.rootNode) Node.empty⟩

/-! ## Bucket sort (`Trie::bucketSortStrings`) -/

/-- The bucket index of the first `L` bytes of `s` as a base-256 big-endian
integer: the loop `bucketIndex += strings[i][j] * powersOf256[j]` with
`powersOf256[j] = 256 ^ (L - 1 - j)`. -/
def bucketIndexOf : Nat → List Nat → Nat
  | 0, _ => 0
  | L + 1, s => s.headD 0 * 256 ^ L + bucketIndexOf L s.tail

/-- Reconstruction of a bucket prefix from its bucket index: the loop
`currentPrefix[i] = (bucketIndex / powersOf256[i]) % 256`, emitting digit
`i` of the base-256 big-endian representation. -/
def digitsOfIndex : Nat → Nat → List Nat
  | 0, _ => []
  | L + 1, b => b / 256 ^ L % 256 :: digitsOfIndex L b

/-- The bucket-filling loop of `Trie::bucketSortStrings`: the first component
models the `allBucketVectors` array of size `256 ^ L` as a function from
bucket index to its index list (in push order), the second component is
`shortStringIndices`.  Strings of length `≥ L` are appended to the bucket of
their first `L` bytes, shorter ones to the short-string list, scanning the
string indices in ascending order. -/
def bucketAccum (strings : List (List Nat)) (L : Nat) :
    (Nat → List Nat) × List Nat :=
  (List.range strings.length).foldl
    (fun acc i =>
      if L ≤ (strings.getD i []).length then
        ((fun b => if b = bucketIndexOf L (strings.getD i [])
            then acc.1 b ++ [i] else acc.1 b), acc.2)
      else
        (acc.1, acc.2 ++ [i]))
    ((fun _ => []), [])

/-- The emission loop of `Trie::bucketSortStrings`: scan all `256 ^ L` bucket
indices in ascending order and emit the prefix and index list of every
non-empty bucket. -/
def bucketEmit (bucketVectors : Nat → List Nat) (L : Nat) :
    List (List Nat) × List (List Nat) :=
  (List.range (256 ^ L)).foldl
    (fun res b =>
      if bucketVectors b = [] then res
      else (res.1 ++ [digitsOfIndex L b], res.2 ++ [bucketVectors b]))
    ([], [])

/-- `Trie::bucketSortStrings`: returns
`(bucketPrefixes, buckets, shortStringIndices)`. -/
def bucketSortStrings (strings : List (List Nat)) (L : Nat) :
    List (List Nat) × List (List Nat) × List Nat :=
  let acc := bucketAccum strings L
  let emitted := bucketEmit acc.1 L
  (emitted.1, emitted.2, acc.2)

/-- `Trie::createBucketTries`: one trie per bucket, inserting each bucket's
strings with their first `prefixLength` bytes stripped.  The OpenMP parallel
loop writes each `bucketTries[bucketIndex]` independently, so its result is
the same as this map. -/
def createBucketTries (strings : List (List Nat)) (prefixLength : Nat)
    (buckets : List (List Nat)) : List Trie :=
  buckets.map (fun bucket => Trie.ofStringIndices strings bucket prefixLength)

/-! ## Coarsening (`Trie::coarsenBucketTries`) -/

/-- The run-grouping loop of `Trie::coarsenBucketTries`, on the zipped list
of (bucket prefix, bucket trie) pairs.  `cl` is `coarsePrefixLength`.  Each
maximal run of pairs sharing the first `cl` prefix bytes is merged into one
coarse trie whose root's children are the run members' roots, keyed by each
member's byte at position `cl` (the byte just dropped from the grouping
key). -/
def coarsenRuns (cl : Nat) : List (List Nat × Trie) → List (List Nat × Trie)
  | [] => []
  | (p, t) :: rest =>
      let run := (p, t) :: rest.takeWhile (fun q => q.1.take cl == p.take cl)
      (p.take cl,
        Trie.ofTries (run.map (fun q => q.1.getD cl 0)) (run.map Prod.snd)) ::
        coarsenRuns cl (rest.dropWhile (fun q => q.1.take cl == p.take cl))
termination_by l => l.length
decreasing_by
  have h1 : (rest.dropWhile (fun q => q.1.take cl == p.take cl)).length ≤
      rest.length := (List.dropWhile_sublist _).length_le
  simp only [List.length_cons]
  omega

/-- One call of `Trie::coarsenBucketTries`: returns immediately if there are
no buckets, otherwise groups by the prefixes shortened by one byte
(`coarsePrefixLength = bucketPrefixes[0].length() - 1`). -/
def coarsenStep (cur : List (List Nat × Trie)) : List (List Nat × Trie) :=
  match cur with
  | [] => []
  | (p, t) :: rest => coarsenRuns (p.length - 1) ((p, t) :: rest)

/-- The coarsening loop of the parallel constructor: `L` rounds of
`coarsenBucketTries`. -/
def coarsenN : Nat → List (List Nat × Trie) → List (List Nat × Trie)
  | 0, cur => cur
  | n + 1, cur => coarsenN n (coarsenStep cur)

/-- `Trie::Trie(const std::vector<std::string>&, size_t)`, the full
constructor.  `numThreads` models `omp_get_max_threads()`.  The parallel path
ends with `*this = std::move(bucketTries[0U])`; when the coarsened list is
empty (no string reaches length `parallelPrefixLength`) that indexes an empty
`std::vector`, which is undefined behavior — modelled as `none`. -/
def TrieOfStrings (strings : List (List Nat))
    (parallelPrefixLength numThreads : Nat) : Option Trie :=
  if parallelPrefixLength = 0 ∨ numThreads = 1 then
    some (Trie.ofStringsSequential strings)
  else
    let sorted := bucketSortStrings strings parallelPrefixLength
    let bucketTries := createBucketTries strings parallelPrefixLength sorted.2.1
    match coarsenN parallelPrefixLength (sorted.1.zip bucketTries) with
    | [] => none
    | t :: _ =>
        some (sorted.2.2.foldl (fun T i => T.insertString strings i 0) t.2)

/-! ## The C++-state-level trie of the merge constructor

The merge constructor `Trie::Trie(std::vector<Trie>&, size_t, const
std::vector<unsigned char>&)` moves the root pointers out of the donor
tries.  To reason about the donors we model a trie whose root pointer can be
null (`none`), which is exactly the moved-from state of `std::unique_ptr`. -/

/-- A trie at the C++ object level: `m_rootNode` is a `std::unique_ptr` that
is null (`none`) after having been moved from. -/
structure CxxTrie : Type where
  rootNode : Option Node

/-- `Trie::getRootNode` dereferences `m_rootNode`; on a moved-from trie the
pointer is null and the returned reference is invalid (`none`). -/
def CxxTrie.getRootNode (T : CxxTrie) : Option Node := T.rootNode

/-- The merge constructor acting on the C++ object state: returns the newly
constructed trie together with the updated donor vector.  Iteration `i` of
the loop executes `m_rootNode->setChildNode(keys[i],
std::move(tries[trieBeginIndex + i].m_rootNode))`, leaving donor
`trieBeginIndex + i` with a null root pointer. -/
def CxxTrie.mergeConstruct (tries : List CxxTrie) (trieBeginIndex : Nat)
    (keys : List Nat) : CxxTrie × List CxxTrie :=
  (List.range keys.length).foldl
    (fun st i =>
      let donor := (st.2.getD (trieBeginIndex + i) ⟨none⟩).rootNode
      (⟨some ((st.1.rootNode.getD Node.empty).setChildNode (keys.getD i 0)
          (donor.getD Node.empty))⟩,
        st.2.set (trieBeginIndex + i) ⟨none⟩))
    (⟨some Node.empty⟩, tries)

/-! ## Claim-level definitions -/

/-- Injectivity of `find` in the index: every stored index is reachable along
at most one path.  This holds for tries built from a string collection, where
index `j` is only ever written at the node of string `j`. -/
def Node.FindInj (n : Node) : Prop :=
  ∀ j s t, n.find s = some j → n.find t = some j → s = t

/-- The brute-force linear-scan oracle of the demo harness
(`testSearchPrefix` in `src/prefix_searcher.cpp`): all indices whose string
starts with the query prefix. -/
def naiveSearch (strings : List (List Nat)) (p : List Nat) : List Nat :=
  (List.range strings.length).filter (fun i => p.isPrefixOf (strings.getD i []))

/-- Strict lexicographic (byte-value) order on byte sequences. -/
inductive LexLt : List Nat → List Nat → Prop where
  | nil (b : Nat) (bs : List Nat) : LexLt [] (b :: bs)
  | head (a b : Nat) (as bs : List Nat) : a < b → LexLt (a :: as) (b :: bs)
  | tail (a : Nat) (as bs : List Nat) : LexLt as bs → LexLt (a :: as) (a :: bs)

/-- The zipped list of (bucket prefix, bucket trie) pairs fed into the
coarsening loop of the parallel constructor. -/
def bucketPairs (strings : List (List Nat)) (L : Nat) : List (List Nat × Trie) :=
  (bucketSortStrings strings L).1.zip
    (createBucketTries strings L (bucketSortStrings strings L).2.1)

/-- The trie left after the `L` coarsening rounds of the parallel
constructor (the `bucketTries[0U]` the constructor moves from). -/
def coarsenedTrie (strings : List (List Nat)) (L : Nat) : Trie :=
  ((coarsenN L (bucketPairs strings L)).headD ([], Trie.empty)).2

/-- Sequential construction restricted to the bucketed strings: the trie
obtained by ordinary sequential insertion of exactly the strings of length at
least `L`, keeping their original indices and input order. -/
def seqLongTrie (strings : List (List Nat)) (L : Nat) : Trie :=
  Trie.ofStringIndices strings
    ((List.range strings.length).filter (fun i => L ≤ (strings.getD i []).length)) 0

/-! ## Theorems -/

/-- Induction principle for `Node` that recurses through the children list. -/
theorem Node.ind (P : Node → Prop)
    (h : ∀ cs si, (∀ k c, (k, c) ∈ cs → P c) → P (Node.mk cs si)) :
    ∀ n, P n
  | Node.mk cs si => h cs si (fun k c hmem => Node.ind P h c)
termination_by n => sizeOf n
decreasing_by
  have h1 : sizeOf (k, c) < sizeOf cs := List.sizeOf_lt_of_mem hmem
  simp only [Prod.mk.sizeOf_spec] at h1
  simp only [Node.mk.sizeOf_spec]
  omega


/-! ## Basic lemmas about `Node` operations -/

theorem Node.keysAndChildNodes_mk (cs : List (Nat × Node)) (si : Option Nat) :
    (Node.mk cs si).keysAndChildNodes = cs := rfl

theorem Node.stringIndex_mk (cs : List (Nat × Node)) (si : Option Nat) :
    (Node.mk cs si).stringIndex = si := rfl

theorem Node.stringIndex_setChildNode (n : Node) (k : Nat) (x : Node) :
    (n.setChildNode k x).stringIndex = n.stringIndex := by
  cases n
  rfl

theorem Node.stringIndex_setStringIndex (n : Node) (i : Nat) :
    (n.setStringIndex i).stringIndex = some i := by
  cases n
  rfl

theorem Node.getChildNode_setStringIndex (n : Node) (i k : Nat) :
    (n.setStringIndex i).getChildNode k = n.getChildNode k := by
  cases n
  rfl

theorem Node.getChildNode_empty (k : Nat) : Node.empty.getChildNode k = none := rfl

theorem Node.stringIndex_empty : Node.empty.stringIndex = none := rfl

theorem setChildList_find? (cs : List (Nat × Node)) (k k' : Nat) (x : Node) :
    (setChildList cs k x).find? (fun q => q.1 == k') =
      if k' = k then some (k, x) else cs.find? (fun q => q.1 == k') := by
  induction cs with
  | nil =>
      by_cases h : k' = k
      · subst h
        simp [setChildList, List.find?_cons]
      · simp [setChildList, List.find?_cons, beq_iff_eq, h, Ne.symm h]
  | cons q rest ih =>
      obtain ⟨a, c⟩ := q
      by_cases hak : a = k
      · subst hak
        by_cases h : k' = a
        · subst h
          simp [setChildList, List.find?_cons]
        · simp [setChildList, List.find?_cons, beq_iff_eq, h, Ne.symm h]
      · by_cases h : k' = a
        · have hk'k : ¬ (k' = k) := fun e => hak (h.symm.trans e)
          simp [setChildList, hak, List.find?_cons, beq_iff_eq, h.symm, hk'k]
        · simp [setChildList, hak, List.find?_cons, beq_iff_eq, Ne.symm h, ih]

theorem Node.getChildNode_setChildNode (n : Node) (k k' : Nat) (x : Node) :
    (n.setChildNode k x).getChildNode k' =
      if k' = k then some x else n.getChildNode k' := by
  cases n with
  | mk cs si =>
      simp only [Node.setChildNode, Node.getChildNode, Node.keysAndChildNodes,
        setChildList_find? cs k k' x]
      by_cases h : k' = k <;> simp [h]

theorem Node.find_nil (n : Node) : n.find [] = n.stringIndex := rfl

theorem Node.getDescendantNodeForPrefix_cons (n : Node) (b : Nat) (s : List Nat) :
    n.getDescendantNodeForPrefix (b :: s) =
      (n.getChildNode b).bind (fun c => c.getDescendantNodeForPrefix s) := by
  cases h : n.getChildNode b <;> simp [Node.getDescendantNodeForPrefix, h]

theorem Node.find_cons (n : Node) (b : Nat) (s : List Nat) :
    n.find (b :: s) = (n.getChildNode b).elim none (fun c => c.find s) := by
  rw [Node.find, Node.getDescendantNodeForPrefix_cons]
  cases n.getChildNode b <;> rfl

theorem Node.find_empty (s : List Nat) : Node.empty.find s = none := by
  cases s with
  | nil => rfl
  | cons b s' => rw [Node.find_cons, Node.getChildNode_empty]; rfl

theorem Node.find_insertString (s : List Nat) (n : Node) (i : Nat) (t : List Nat) :
    (n.insertString s i).find t = if s = t then some i else n.find t := by
  induction s generalizing n t with
  | nil =>
      cases t with
      | nil => simp [Node.insertString, Node.find_nil, Node.stringIndex_setStringIndex]
      | cons b t' =>
          simp only [Node.insertString, Node.find_cons, Node.getChildNode_setStringIndex,
            List.nil_eq, reduceCtorEq, if_false]
      -- wait: the if-condition is [] = b :: t', false
  | cons a s' ih =>
      cases t with
      | nil =>
          simp only [Node.insertString, Node.find_nil, Node.stringIndex_setChildNode,
            reduceCtorEq, if_false]
      | cons b t' =>
          have hcons : Node.insertString n (a :: s') i =
              n.setChildNode a (((n.getChildNode a).getD Node.empty).insertString s' i) :=
            rfl
          rw [hcons, Node.find_cons, Node.getChildNode_setChildNode]
          by_cases hba : b = a
          · subst hba
            rw [if_pos rfl]
            simp only [Option.elim]
            rw [ih]
            by_cases hst : s' = t'
            · subst hst
              simp
            · rw [if_neg hst, if_neg (by simp [hst])]
              rw [Node.find_cons]
              cases hgc : n.getChildNode b <;> simp [hgc, Node.find_empty]
          · rw [if_neg hba]
            have hne : ¬ (a :: s' = b :: t') := by
              intro h
              injection h with h1 _
              exact hba h1.symm
            rw [if_neg hne, Node.find_cons]

/-! ## Well-formedness preservation -/

theorem mem_setChildList (cs : List (Nat × Node)) (k : Nat) (x : Node) :
    ∀ q ∈ setChildList cs k x, q = (k, x) ∨ q ∈ cs := by
  induction cs with
  | nil => simp [setChildList]
  | cons q0 rest ih =>
      obtain ⟨a, c⟩ := q0
      intro q hq
      by_cases hak : a = k
      · subst hak
        simp only [setChildList, if_true, eq_self_iff_true, List.mem_cons] at hq
        rcases hq with h | h
        · exact Or.inl h
        · exact Or.inr (List.mem_cons_of_mem _ h)
      · simp only [setChildList, if_neg hak, List.mem_cons] at hq
        rcases hq with h | h
        · exact Or.inr (by simp [h])
        · rcases ih q h with h' | h'
          · exact Or.inl h'
          · exact Or.inr (List.mem_cons_of_mem _ h')

theorem map_fst_setChildList (cs : List (Nat × Node)) (k : Nat) (x : Node) :
    (setChildList cs k x).map Prod.fst =
      if k ∈ cs.map Prod.fst then cs.map Prod.fst else cs.map Prod.fst ++ [k] := by
  induction cs with
  | nil => simp [setChildList]
  | cons q0 rest ih =>
      obtain ⟨a, c⟩ := q0
      by_cases hak : a = k
      · subst hak
        simp [setChildList]
      · simp only [setChildList, if_neg hak, List.map_cons, ih]
        by_cases hin : k ∈ rest.map Prod.fst <;>
          simp [hin, Ne.symm hak]

theorem nodup_keys_setChildList (cs : List (Nat × Node)) (k : Nat) (x : Node)
    (h : (cs.map Prod.fst).Nodup) : ((setChildList cs k x).map Prod.fst).Nodup := by
  rw [map_fst_setChildList]
  by_cases hin : k ∈ cs.map Prod.fst
  · simpa [hin] using h
  · simp only [hin, if_false]
    simp [List.nodup_append, h, hin]

theorem Node.WF.empty : Node.WF Node.empty :=
  Node.WF.mk [] none (by simp) (by simp)

theorem Node.WF.setChildNode {n x : Node} (hn : n.WF) (hx : x.WF) (k : Nat) :
    (n.setChildNode k x).WF := by
  cases hn with
  | mk cs si hkeys hch =>
      refine Node.WF.mk _ si (nodup_keys_setChildList cs k x hkeys) ?_
      intro k' c' hm
      rcases mem_setChildList cs k x (k', c') hm with h | h
      · cases h
        exact hx
      · exact hch k' c' h

theorem Node.WF.setStringIndex {n : Node} (hn : n.WF) (i : Nat) :
    (n.setStringIndex i).WF := by
  cases hn with
  | mk cs si hkeys hch => exact Node.WF.mk cs (some i) hkeys hch

theorem Node.WF.getChildNode {n c : Node} (hn : n.WF) {k : Nat}
    (h : n.getChildNode k = some c) : c.WF := by
  cases hn with
  | mk cs si hkeys hch =>
      simp only [Node.getChildNode, Node.keysAndChildNodes, Option.map_eq_some'] at h
      obtain ⟨q, hq, hqc⟩ := h
      have hq1 : q.1 = k := by simpa using List.find?_some hq
      have : q ∈ cs := List.mem_of_find?_eq_some hq
      subst hqc
      exact hch q.1 q.2 (by simpa using this)

theorem Node.getChildNode_mem {n c : Node} {k : Nat}
    (h : n.getChildNode k = some c) : (k, c) ∈ n.keysAndChildNodes := by
  simp only [Node.getChildNode, Option.map_eq_some'] at h
  obtain ⟨q, hq, hqc⟩ := h
  have hq1 : q.1 = k := by simpa using List.find?_some hq
  have hm : q ∈ n.keysAndChildNodes := List.mem_of_find?_eq_some hq
  have : q = (k, c) := by
    cases q
    simp_all
  rwa [this] at hm

theorem Node.WF.insertString {n : Node} (hn : n.WF) (s : List Nat) (i : Nat) :
    (n.insertString s i).WF := by
  induction s generalizing n with
  | nil => exact hn.setStringIndex i
  | cons a s' ih =>
      have hchild : ((n.getChildNode a).getD Node.empty).WF := by
        cases hgc : n.getChildNode a with
        | none => exact Node.WF.empty
        | some c => simpa using hn.getChildNode hgc
      exact hn.setChildNode (ih hchild) a

theorem find?_keys_nodup (cs : List (Nat × Node))
    (h : (cs.map Prod.fst).Nodup) {k : Nat} {c : Node} (hm : (k, c) ∈ cs) :
    cs.find? (fun q => q.1 == k) = some (k, c) := by
  induction cs with
  | nil => cases hm
  | cons q0 rest ih =>
      obtain ⟨a, d⟩ := q0
      rcases List.mem_cons.mp hm with he | hmem
      · cases he
        simp [List.find?_cons]
      · have hak : a ≠ k := by
          intro hak
          subst hak
          have : a ∈ rest.map Prod.fst := List.mem_map_of_mem Prod.fst hmem
          simp only [List.map_cons, List.nodup_cons] at h
          exact h.1 this
        have htail : (rest.map Prod.fst).Nodup := by
          simp only [List.map_cons, List.nodup_cons] at h
          exact h.2
        simp [List.find?_cons, beq_iff_eq, hak, ih htail hmem]

theorem Node.getChildNode_of_mem {cs : List (Nat × Node)} {si : Option Nat}
    {k : Nat} {c : Node} (hkeys : (cs.map Prod.fst).Nodup) (hm : (k, c) ∈ cs) :
    (Node.mk cs si).getChildNode k = some c := by
  simp [Node.getChildNode, Node.keysAndChildNodes, find?_keys_nodup cs hkeys hm]

/-! ## Collected indices versus `find` -/

theorem mem_collectStringIndicesList_iff (cs : List (Nat × Node)) (j : Nat) :
    j ∈ Node.collectStringIndicesList cs ↔
      ∃ k c, (k, c) ∈ cs ∧ j ∈ c.collectStringIndices := by
  induction cs with
  | nil => simp [Node.collectStringIndicesList]
  | cons q0 rest ih =>
      obtain ⟨a, c0⟩ := q0
      simp only [Node.collectStringIndicesList, List.mem_append, ih, List.mem_cons]
      constructor
      · rintro (h | ⟨k, c, hm, hj⟩)
        · exact ⟨a, c0, Or.inl rfl, h⟩
        · exact ⟨k, c, Or.inr hm, hj⟩
      · rintro ⟨k, c, hm | hm, hj⟩
        · cases hm
          exact Or.inl hj
        · exact Or.inr ⟨k, c, hm, hj⟩

theorem Node.collect_mk (cs : List (Nat × Node)) (si : Option Nat) :
    (Node.mk cs si).collectStringIndices =
      (si.elim [] (fun i => [i])) ++ Node.collectStringIndicesList cs := by
  rw [Node.collectStringIndices]

theorem Node.mem_collect_of_find :
    ∀ (n : Node) (s : List Nat) (j : Nat),
      n.find s = some j → j ∈ n.collectStringIndices := by
  refine Node.ind (fun n => ∀ s j, n.find s = some j → j ∈ n.collectStringIndices) ?_
  intro cs si IH s j hf
  cases s with
  | nil =>
      rw [Node.find_nil, Node.stringIndex_mk] at hf
      subst hf
      simp [Node.collect_mk]
  | cons b s' =>
      rw [Node.find_cons] at hf
      cases hgc : (Node.mk cs si).getChildNode b with
      | none => rw [hgc] at hf; cases hf
      | some c =>
          rw [hgc] at hf
          have hm : (b, c) ∈ cs := by
            simpa [Node.keysAndChildNodes_mk] using Node.getChildNode_mem hgc
          have hj : j ∈ c.collectStringIndices := IH b c hm s' j hf
          rw [Node.collect_mk]
          exact List.mem_append_right _
            ((mem_collectStringIndicesList_iff cs j).mpr ⟨b, c, hm, hj⟩)

theorem Node.find_of_mem_collect :
    ∀ (n : Node), n.WF → ∀ j, j ∈ n.collectStringIndices →
      ∃ s, n.find s = some j := by
  refine Node.ind
    (fun n => n.WF → ∀ j, j ∈ n.collectStringIndices → ∃ s, n.find s = some j) ?_
  intro cs si IH hwf j hj
  cases hwf with
  | mk _ _ hkeys hch =>
      rw [Node.collect_mk] at hj
      rcases List.mem_append.mp hj with h | h
      · refine ⟨[], ?_⟩
        rw [Node.find_nil, Node.stringIndex_mk]
        cases si with
        | none => simp at h
        | some i => simpa using (by simpa using h : j = i).symm ▸ rfl
      · obtain ⟨k, c, hm, hjc⟩ := (mem_collectStringIndicesList_iff cs j).mp h
        obtain ⟨s', hs'⟩ := IH k c hm (hch k c hm) j hjc
        refine ⟨k :: s', ?_⟩
        rw [Node.find_cons, Node.getChildNode_of_mem hkeys hm]
        exact hs'

theorem Node.FindInj.child {n c : Node} {k : Nat} (hn : n.FindInj)
    (h : n.getChildNode k = some c) : c.FindInj := by
  intro j s t hs ht
  have hs' : n.find (k :: s) = some j := by rw [Node.find_cons, h]; exact hs
  have ht' : n.find (k :: t) = some j := by rw [Node.find_cons, h]; exact ht
  have := hn j (k :: s) (k :: t) hs' ht'
  injection this

theorem Node.nodup_collect :
    ∀ (n : Node), n.WF → n.FindInj → n.collectStringIndices.Nodup := by
  refine Node.ind
    (fun n => n.WF → n.FindInj → n.collectStringIndices.Nodup) ?_
  intro cs si IH hwf hinj
  have hwf' := hwf
  cases hwf with
  | mk _ _ hkeys hch =>
      have hgc : ∀ k c, (k, c) ∈ cs → (Node.mk cs si).getChildNode k = some c :=
        fun k c hm => Node.getChildNode_of_mem hkeys hm
      have inner : ∀ ds : List (Nat × Node), (∀ q ∈ ds, q ∈ cs) →
          (ds.map Prod.fst).Nodup → (Node.collectStringIndicesList ds).Nodup ∧
          (∀ j ∈ Node.collectStringIndicesList ds,
            ∃ k c s, (k, c) ∈ ds ∧ (Node.mk cs si).find (k :: s) = some j) := by
        intro ds
        induction ds with
        | nil => intro _ _; simp [Node.collectStringIndicesList]
        | cons q0 rest ihd =>
            obtain ⟨k, c⟩ := q0
            intro hsub hnd
            have hmcs : (k, c) ∈ cs := hsub (k, c) (List.mem_cons_self _ _)
            have hkc : (Node.mk cs si).getChildNode k = some c := hgc k c hmcs
            have hcwf : c.WF := hch k c hmcs
            have hcinj : c.FindInj := Node.FindInj.child hinj hkc
            have hcnd : c.collectStringIndices.Nodup := IH k c hmcs hcwf hcinj
            have hnd' : (rest.map Prod.fst).Nodup :=
              (List.nodup_cons.mp (by simpa using hnd)).2
            have hknotin : k ∉ rest.map Prod.fst :=
              (List.nodup_cons.mp (by simpa using hnd)).1
            have hrest := ihd (fun q hq => hsub q (List.mem_cons_of_mem _ hq)) hnd'
            constructor
            · rw [Node.collectStringIndicesList]
              rw [List.nodup_append]
              refine ⟨hcnd, hrest.1, ?_⟩
              intro j hjc hjrest
              obtain ⟨k', c', s', hm', hf'⟩ := hrest.2 j hjrest
              obtain ⟨s, hs⟩ := Node.find_of_mem_collect c hcwf j hjc
              have hfc : (Node.mk cs si).find (k :: s) = some j := by
                rw [Node.find_cons, hkc]
                exact hs
              have heq := hinj j (k :: s) (k' :: s') hfc hf'
              have hkk' : k = k' := by injection heq
              exact hknotin (hkk' ▸ List.mem_map_of_mem Prod.fst hm')
            · intro j hj
              rw [Node.collectStringIndicesList, List.mem_append] at hj
              rcases hj with hj | hj
              · obtain ⟨s, hs⟩ := Node.find_of_mem_collect c hcwf j hj
                refine ⟨k, c, s, List.mem_cons_self _ _, ?_⟩
                rw [Node.find_cons, hkc]
                exact hs
              · obtain ⟨k', c', s', hm', hf'⟩ := hrest.2 j hj
                exact ⟨k', c', s', List.mem_cons_of_mem _ hm', hf'⟩
      rw [Node.collect_mk, List.nodup_append]
      refine ⟨?_, (inner cs (fun q hq => hq) hkeys).1, ?_⟩
      · cases si <;> simp
      · intro j hjsi hjlist
        have hsi : si = some j := by
          cases si with
          | none => simp at hjsi
          | some i => simpa using congrArg some (by simpa using hjsi : j = i).symm
        obtain ⟨k, c, s, hm, hf⟩ := (inner cs (fun q hq => hq) hkeys).2 j hjlist
        have hf0 : (Node.mk cs si).find [] = some j := by
          rw [Node.find_nil, Node.stringIndex_mk, hsi]
        have := hinj j [] (k :: s) hf0 hf
        cases this

/-! ## Prefix descent and search -/

theorem Node.getDescendantNodeForPrefix_append (n : Node) (p q : List Nat) :
    n.getDescendantNodeForPrefix (p ++ q) =
      (n.getDescendantNodeForPrefix p).bind
        (fun d => d.getDescendantNodeForPrefix q) := by
  induction p generalizing n with
  | nil => simp [Node.getDescendantNodeForPrefix]
  | cons b p' ih =>
      rw [List.cons_append, Node.getDescendantNodeForPrefix_cons,
        Node.getDescendantNodeForPrefix_cons]
      cases n.getChildNode b with
      | none => rfl
      | some c => simp [ih]

theorem Node.find_append (n : Node) (p s : List Nat) :
    n.find (p ++ s) =
      (n.getDescendantNodeForPrefix p).elim none (fun d => d.find s) := by
  rw [Node.find, Node.getDescendantNodeForPrefix_append]
  cases n.getDescendantNodeForPrefix p <;> rfl

theorem Node.WF.descendant {n : Node} (hn : n.WF) :
    ∀ {p : List Nat} {d : Node}, n.getDescendantNodeForPrefix p = some d → d.WF := by
  intro p
  induction p generalizing n with
  | nil =>
      intro d h
      cases h
      exact hn
  | cons b p' ih =>
      intro d h
      rw [Node.getDescendantNodeForPrefix_cons] at h
      cases hgc : n.getChildNode b with
      | none => rw [hgc] at h; cases h
      | some c =>
          rw [hgc] at h
          exact ih (hn.getChildNode hgc) h
  
theorem Trie.mem_searchPrefix_iff {T : Trie} (hwf : T.rootNode.WF)
    (p : List Nat) (j : Nat) :
    j ∈ T.searchPrefix p ↔ ∃ s, T.rootNode.find (p ++ s) = some j := by
  unfold Trie.searchPrefix
  cases hd : T.rootNode.getDescendantNodeForPrefix p with
  | none =>
      simp only [List.not_mem_nil, false_iff, not_exists]
      intro s hs
      rw [Node.find_append, hd] at hs
      cases hs
  | some d =>
      constructor
      · intro hj
        obtain ⟨s, hs⟩ := Node.find_of_mem_collect d (hwf.descendant hd) j hj
        exact ⟨s, by rw [Node.find_append, hd]; exact hs⟩
      · rintro ⟨s, hs⟩
        rw [Node.find_append, hd] at hs
        exact Node.mem_collect_of_find d s j hs

/-! ## Folded insertion: last-write-wins characterization -/

theorem Trie.rootNode_insertString (T : Trie) (strings : List (List Nat))
    (i ign : Nat) :
    (T.insertString strings i ign).rootNode =
      T.rootNode.insertString ((strings.getD i []).drop ign) i := rfl

theorem find_foldl_insertString (strings : List (List Nat)) (ign : Nat)
    (is : List Nat) (T0 : Trie) (t : List Nat) :
    (is.foldl (fun T i => T.insertString strings i ign) T0).rootNode.find t =
      (is.reverse.find? (fun i => (strings.getD i []).drop ign == t)).or
        (T0.rootNode.find t) := by
  induction is generalizing T0 with
  | nil => simp
  | cons i is' ih =>
      rw [List.foldl_cons, ih, List.reverse_cons, List.find?_append]
      rw [Trie.rootNode_insertString, Node.find_insertString]
      by_cases hc : (strings.getD i []).drop ign = t
      · have hb : ((strings.getD i []).drop ign == t) = true := beq_iff_eq.mpr hc
        have hsingle :
            List.find? (fun i => (strings.getD i []).drop ign == t) [i] = some i := by
          simp only [List.find?_cons]
          rw [hb]
        rw [if_pos hc, hsingle]
        cases is'.reverse.find? (fun i => (strings.getD i []).drop ign == t) <;> rfl
      · have hb : ((strings.getD i []).drop ign == t) = false := by
          simpa using hc
        have hsingle :
            List.find? (fun i => (strings.getD i []).drop ign == t) [i] = none := by
          simp only [List.find?_cons]
          rw [hb]
          rfl
        rw [if_neg hc, hsingle]
        cases is'.reverse.find? (fun i => (strings.getD i []).drop ign == t) <;> rfl

theorem Trie.rootNode_wf_foldl (strings : List (List Nat)) (ign : Nat)
    (is : List Nat) (T0 : Trie) (h0 : T0.rootNode.WF) :
    (is.foldl (fun T i => T.insertString strings i ign) T0).rootNode.WF := by
  induction is generalizing T0 with
  | nil => exact h0
  | cons i is' ih =>
      rw [List.foldl_cons]
      exact ih _ (h0.insertString _ _)

theorem Trie.rootNode_wf_ofStringIndices (strings : List (List Nat))
    (is : List Nat) (ign : Nat) :
    (Trie.ofStringIndices strings is ign).rootNode.WF :=
  Trie.rootNode_wf_foldl strings ign is Trie.empty Node.WF.empty

theorem Trie.rootNode_wf_ofStringsSequential (strings : List (List Nat)) :
    (Trie.ofStringsSequential strings).rootNode.WF :=
  Trie.rootNode_wf_foldl strings 0 (List.range strings.length) Trie.empty
    Node.WF.empty

/-- On a list sorted strictly ascending, searching the reversed list finds
the greatest element satisfying the predicate. -/
theorem find?_reverse_of_sorted (l : List Nat) (hl : l.Pairwise (· < ·))
    (p : Nat → Bool) :
    ∀ m, (l.reverse.find? p = some m ↔
      (m ∈ l ∧ p m = true ∧ ∀ k ∈ l, p k = true → k ≤ m)) := by
  induction l with
  | nil => intro m; simp
  | cons a l' ih =>
      intro m
      have hal : ∀ k ∈ l', a < k := fun k hk => (List.pairwise_cons.mp hl).1 k hk
      have hl' : l'.Pairwise (· < ·) := (List.pairwise_cons.mp hl).2
      rw [List.reverse_cons, List.find?_append]
      cases hf : l'.reverse.find? p with
      | some m' =>
          have hm' := (ih hl' m').mp hf
          simp only [Option.or_some]
          constructor
          · rintro he
            have : m' = m := by injection he
            subst this
            refine ⟨List.mem_cons_of_mem _ hm'.1, hm'.2.1, ?_⟩
            intro k hk hpk
            rcases List.mem_cons.mp hk with rfl | hk'
            · exact Nat.le_of_lt (hal m' hm'.1)
            · exact hm'.2.2 k hk' hpk
          · rintro ⟨hm, hpm, hmax⟩
            rcases List.mem_cons.mp hm with rfl | hmem
            · exact absurd (hal m' hm'.1)
                (Nat.not_lt.mpr (hmax m' (List.mem_cons_of_mem _ hm'.1) hm'.2.1))
            · have h1 : m ≤ m' := hm'.2.2 m hmem hpm
              have h2 : m' ≤ m := hmax m' (List.mem_cons_of_mem _ hm'.1) hm'.2.1
              rw [Nat.le_antisymm h1 h2]
      | none =>
          have hnone : ∀ x ∈ l', p x ≠ true := by
            intro x hx
            have := List.find?_eq_none.mp (by simpa using hf)
            exact this x hx
          simp only [Option.none_or]
          by_cases hpa : p a = true
          · simp only [List.find?_cons, hpa, Option.some.injEq]
            constructor
            · rintro rfl
              refine ⟨List.mem_cons_self _ _, hpa, ?_⟩
              intro k hk hpk
              rcases List.mem_cons.mp hk with rfl | hk'
              · exact Nat.le_refl _
              · exact absurd hpk (hnone k hk')
            · rintro ⟨hm, hpm, _⟩
              rcases List.mem_cons.mp hm with rfl | hmem
              · rfl
              · exact absurd hpm (hnone m hmem)
          · simp only [List.find?_cons]
            rw [Bool.not_eq_true] at hpa
            rw [hpa]
            simp only [List.find?_nil, reduceCtorEq, false_iff, not_and]
            intro hm hpm
            rcases List.mem_cons.mp hm with rfl | hmem
            · rw [hpm] at hpa; cases hpa
            · exact absurd hpm (hnone m hmem)

/-! ## Characterization of sequentially built tries -/

theorem Trie.find_ofStringsSequential (strings : List (List Nat))
    (t : List Nat) (m : Nat) :
    (Trie.ofStringsSequential strings).rootNode.find t = some m ↔
      (m < strings.length ∧ strings.getD m [] = t ∧
        ∀ k, m < k → k < strings.length → strings.getD k [] ≠ t) := by
  have hbase : Trie.empty.rootNode.find t = none := Node.find_empty t
  rw [Trie.ofStringsSequential,
    find_foldl_insertString strings 0 (List.range strings.length) Trie.empty t,
    hbase, Option.or_none,
    find?_reverse_of_sorted _ (List.pairwise_lt_range _) _ m]
  simp only [List.mem_range, List.drop_zero, beq_iff_eq, decide_eq_true_eq]
  constructor
  · rintro ⟨hm, ht, hmax⟩
    refine ⟨hm, ht, ?_⟩
    intro k hmk hkN hkt
    exact absurd (hmax k hkN hkt) (Nat.not_le.mpr hmk)
  · rintro ⟨hm, ht, hnolater⟩
    refine ⟨hm, ht, ?_⟩
    intro k hkN hkt
    by_contra hgt
    exact hnolater k (Nat.lt_of_not_le (fun h => hgt h)) hkN hkt

theorem Trie.find_ofStringIndices (strings : List (List Nat)) (is : List Nat)
    (hs : is.Pairwise (· < ·)) (ign : Nat) (t : List Nat) (m : Nat) :
    (Trie.ofStringIndices strings is ign).rootNode.find t = some m ↔
      (m ∈ is ∧ (strings.getD m []).drop ign = t ∧
        ∀ k ∈ is, (strings.getD k []).drop ign = t → k ≤ m) := by
  have hbase : Trie.empty.rootNode.find t = none := Node.find_empty t
  rw [Trie.ofStringIndices,
    find_foldl_insertString strings ign is Trie.empty t,
    hbase, Option.or_none,
    find?_reverse_of_sorted _ hs _ m]
  simp only [beq_iff_eq]

/-- The strings of a collection, seen through `getD`, are pairwise distinct
when the collection has no duplicates. -/
theorem nodup_getD_inj (strings : List (List Nat)) (h : strings.Nodup)
    {a b : Nat} (ha : a < strings.length) (hb : b < strings.length)
    (he : strings.getD a [] = strings.getD b []) : a = b := by
  rw [List.getD_eq_getElem strings [] ha, List.getD_eq_getElem strings [] hb] at he
  have h2 : strings.get ⟨a, ha⟩ = strings.get ⟨b, hb⟩ := by simpa using he
  exact congrArg Fin.val (List.nodup_iff_injective_get.mp h h2)

theorem Trie.findInj_ofStringsSequential (strings : List (List Nat))
    (h : strings.Nodup) :
    (Trie.ofStringsSequential strings).rootNode.FindInj := by
  intro j s t hsj htj
  have hs := (Trie.find_ofStringsSequential strings s j).mp hsj
  have ht := (Trie.find_ofStringsSequential strings t j).mp htj
  rw [← hs.2.1, ← ht.2.1]

theorem Trie.mem_searchPrefix_sequential (strings : List (List Nat))
    (h : strings.Nodup) (p : List Nat) (j : Nat) :
    j ∈ (Trie.ofStringsSequential strings).searchPrefix p ↔
      (j < strings.length ∧ p <+: strings.getD j []) := by
  rw [Trie.mem_searchPrefix_iff (Trie.rootNode_wf_ofStringsSequential strings)]
  constructor
  · rintro ⟨s, hfs⟩
    have hc := (Trie.find_ofStringsSequential strings (p ++ s) j).mp hfs
    exact ⟨hc.1, ⟨s, hc.2.1.symm⟩⟩
  · rintro ⟨hj, s, hps⟩
    refine ⟨s, (Trie.find_ofStringsSequential strings (p ++ s) j).mpr
      ⟨hj, hps.symm, ?_⟩⟩
    intro k hjk hkN hkt
    have := nodup_getD_inj strings h hkN hj (hkt.trans hps)
    omega

theorem Trie.searchPrefix_nil (T : Trie) :
    T.searchPrefix [] = T.rootNode.collectStringIndices := rfl

/-! ## Claim C1 -/

/-- C1, counterexample: the claim quantifies over *every* input collection,
but for a collection containing two byte-identical strings the brute-force
scan returns both indices while `searchPrefix` returns only the later one
(index 0 is missing from the trie result although its string starts with the
queried prefix). -/
theorem claim_c1_cex :
    0 ∈ naiveSearch [[0], [0]] [] ∧
    0 ∉ (Trie.ofStringsSequential [[0], [0]]).searchPrefix [] := by
  decide

/-- C1, amended: for every input collection of *pairwise-distinct* byte
strings and every query prefix `p`, `searchPrefix p` on the sequentially
constructed trie returns exactly the indices `i` with `strings[i]` starting
with `p`, i.e. the same set as the brute-force linear scan. -/
theorem claim_c1_amended (strings : List (List Nat)) (h : strings.Nodup)
    (p : List Nat) (j : Nat) :
    j ∈ (Trie.ofStringsSequential strings).searchPrefix p ↔
      j ∈ naiveSearch strings p := by
  rw [Trie.mem_searchPrefix_sequential strings h p j]
  simp [naiveSearch, List.mem_filter, List.mem_range, List.isPrefixOf_iff_prefix]

/-- C1 witness. -/
theorem claim_c1_witness :
    1 ∈ (Trie.ofStringsSequential [[0], [1, 2]]).searchPrefix [1] ↔
      1 ∈ naiveSearch [[0], [1, 2]] [1] :=
  claim_c1_amended [[0], [1, 2]] (by decide) [1] 1

/-! ## Claim C6 -/

/-- C6, counterexample: the claim is stated for *any* two distinct indices
`i < j` with byte-identical strings, but with a third identical copy after
`j` the index `j` does not survive either: for `[[0], [0], [0]]`, taking
`i = 0 < j = 1` satisfies the claim's hypotheses, the empty prefix is a
prefix of string 1, yet `1` is not in the search result. -/
theorem claim_c6_cex :
    ([[0], [0], [0]] : List (List Nat)).getD 0 [] =
      ([[0], [0], [0]] : List (List Nat)).getD 1 [] ∧
    ([] : List Nat) <+: ([[0], [0], [0]] : List (List Nat)).getD 1 [] ∧
    1 ∉ (Trie.ofStringsSequential [[0], [0], [0]]).searchPrefix [] := by
  decide

/-- C6, amended: if `strings[i] = strings[j]` for `i < j` and `j` is the
*last* index holding that byte sequence, then `j` appears in every
`searchPrefix` result whose prefix the string starts with, and `i` appears in
no `searchPrefix` result. -/
theorem claim_c6_amended (strings : List (List Nat)) (i j : Nat)
    (hij : i < j) (hjN : j < strings.length)
    (heq : strings.getD i [] = strings.getD j [])
    (hlast : ∀ k, j < k → k < strings.length →
      strings.getD k [] ≠ strings.getD j []) :
    (∀ p, p <+: strings.getD j [] →
        j ∈ (Trie.ofStringsSequential strings).searchPrefix p) ∧
    (∀ p, i ∉ (Trie.ofStringsSequential strings).searchPrefix p) := by
  constructor
  · intro p hp
    rw [Trie.mem_searchPrefix_iff (Trie.rootNode_wf_ofStringsSequential strings)]
    obtain ⟨s, hs⟩ := hp
    refine ⟨s, (Trie.find_ofStringsSequential strings (p ++ s) j).mpr
      ⟨hjN, hs.symm, ?_⟩⟩
    intro k h1 h2 h3
    exact hlast k h1 h2 (h3.trans hs)
  · intro p
    rw [Trie.mem_searchPrefix_iff (Trie.rootNode_wf_ofStringsSequential strings)]
    rintro ⟨s, hs⟩
    have hc := (Trie.find_ofStringsSequential strings (p ++ s) i).mp hs
    exact hc.2.2 j hij hjN (heq.symm.trans hc.2.1)

/-- C6 witness. -/
theorem claim_c6_witness :
    1 ∈ (Trie.ofStringsSequential [[0], [0]]).searchPrefix [0] ∧
    0 ∉ (Trie.ofStringsSequential [[0], [0]]).searchPrefix [] := by
  have h := claim_c6_amended [[0], [0]] 0 1 (by decide) (by decide) (by decide)
    (by
      intro k h1 h2
      simp only [List.length_cons, List.length_nil] at h2
      omega)
  exact ⟨h.1 [0] (by decide), h.2 []⟩

/-! ## Claim C7 -/

/-- C7: for pairwise-distinct input strings, querying the empty prefix
returns every valid index `0 .. N-1` exactly once: the result is a
permutation of `range N`. -/
theorem claim_c7 (strings : List (List Nat)) (h : strings.Nodup) :
    ((Trie.ofStringsSequential strings).searchPrefix []).Perm
      (List.range strings.length) := by
  have hwf := Trie.rootNode_wf_ofStringsSequential strings
  have hnd : ((Trie.ofStringsSequential strings).searchPrefix []).Nodup := by
    rw [Trie.searchPrefix_nil]
    exact Node.nodup_collect _ hwf (Trie.findInj_ofStringsSequential strings h)
  rw [List.perm_ext_iff_of_nodup hnd (List.nodup_range _)]
  intro j
  rw [Trie.mem_searchPrefix_sequential strings h [] j, List.mem_range]
  simp

/-- C7 witness. -/
theorem claim_c7_witness :
    ((Trie.ofStringsSequential [[0], [1]]).searchPrefix []).Perm (List.range 2) :=
  claim_c7 [[0], [1]] (by decide)

/-! ## Claim C8 -/

/-- `find?` returns the unique satisfier of its predicate. -/
theorem find?_of_unique (l : List Nat) (p : Nat → Bool) (m : Nat)
    (hm : m ∈ l) (hpm : p m = true)
    (huniq : ∀ k ∈ l, p k = true → k = m) : l.find? p = some m := by
  induction l with
  | nil => cases hm
  | cons a l' ih =>
      by_cases hpa : p a = true
      · have : a = m := huniq a (List.mem_cons_self _ _) hpa
        subst this
        simp [List.find?_cons, hpa]
      · have hb : p a = false := by simpa using hpa
        have ham : a ≠ m := fun he => hpa (he ▸ hpm)
        have hm' : m ∈ l' := by
          rcases List.mem_cons.mp hm with he | hm'
          · exact absurd he.symm ham
          · exact hm'
        simp only [List.find?_cons, hb]
        exact ih hm' (fun k hk hpk => huniq k (List.mem_cons_of_mem _ hk) hpk)

/-- For an insertion-index list whose strings are pairwise distinct, the trie
map does not depend on the insertion order: an index is found at exactly the
path of its string. -/
theorem Trie.find_ofStringIndices_inj (strings : List (List Nat))
    (is : List Nat)
    (hinj : ∀ a ∈ is, ∀ b ∈ is, strings.getD a [] = strings.getD b [] → a = b)
    (t : List Nat) (m : Nat) :
    (Trie.ofStringIndices strings is 0).rootNode.find t = some m ↔
      (m ∈ is ∧ strings.getD m [] = t) := by
  have hbase : Trie.empty.rootNode.find t = none := Node.find_empty t
  rw [Trie.ofStringIndices, find_foldl_insertString strings 0 is Trie.empty t,
    hbase, Option.or_none]
  constructor
  · intro hf
    have hm := List.mem_of_find?_eq_some hf
    have hpm := List.find?_some hf
    refine ⟨List.mem_reverse.mp hm, ?_⟩
    simpa using hpm
  · rintro ⟨hm, ht⟩
    apply find?_of_unique
    · exact List.mem_reverse.mpr hm
    · simpa using ht
    · intro k hk hpk
      exact hinj k (List.mem_reverse.mp hk) m hm
        (by
          have : (strings.getD k []).drop 0 = t := by simpa using hpk
          simpa using this.trans ht.symm)

/-- C8: inserting a fixed set of (byte-sequence, original-index) pairs with
pairwise-distinct byte sequences in any order produces tries with equal
`searchPrefix` result sets for every prefix.  The pairs are given as an index
list into the collection (the pair `(strings[i], i)` for each `i`), and "any
order" as an arbitrary permutation of that list. -/
theorem claim_c8 (strings : List (List Nat)) (is js : List Nat)
    (hperm : is.Perm js)
    (hinj : ∀ a ∈ is, ∀ b ∈ is, strings.getD a [] = strings.getD b [] → a = b)
    (p : List Nat) (j : Nat) :
    j ∈ (Trie.ofStringIndices strings is 0).searchPrefix p ↔
      j ∈ (Trie.ofStringIndices strings js 0).searchPrefix p := by
  have hinj' : ∀ a ∈ js, ∀ b ∈ js, strings.getD a [] = strings.getD b [] → a = b :=
    fun a ha b hb => hinj a (hperm.mem_iff.mpr ha) b (hperm.mem_iff.mpr hb)
  rw [Trie.mem_searchPrefix_iff (Trie.rootNode_wf_ofStringIndices strings is 0),
    Trie.mem_searchPrefix_iff (Trie.rootNode_wf_ofStringIndices strings js 0)]
  constructor
  · rintro ⟨s, hs⟩
    have hc := (Trie.find_ofStringIndices_inj strings is hinj (p ++ s) j).mp hs
    exact ⟨s, (Trie.find_ofStringIndices_inj strings js hinj' (p ++ s) j).mpr
      ⟨hperm.mem_iff.mp hc.1, hc.2⟩⟩
  · rintro ⟨s, hs⟩
    have hc := (Trie.find_ofStringIndices_inj strings js hinj' (p ++ s) j).mp hs
    exact ⟨s, (Trie.find_ofStringIndices_inj strings is hinj (p ++ s) j).mpr
      ⟨hperm.mem_iff.mpr hc.1, hc.2⟩⟩

/-- C8 witness. -/
theorem claim_c8_witness :
    0 ∈ (Trie.ofStringIndices [[0], [1]] [0, 1] 0).searchPrefix [0] ↔
      0 ∈ (Trie.ofStringIndices [[0], [1]] [1, 0] 0).searchPrefix [0] :=
  claim_c8 [[0], [1]] [0, 1] [1, 0] (by decide)
    (by decide) [0] 0

/-! ## Claim C9 -/

/-- C9: after `setChildNode(key, node)`, the child reachable under `key` is
exactly the supplied node (an existing child under that key is replaced, not
merged), and the child mapping under every other key is unchanged. -/
theorem claim_c9 (n : Node) (key : Nat) (node : Node) :
    ((n.setChildNode key node).getChildNode key = some node) ∧
    (∀ k, k ≠ key → (n.setChildNode key node).getChildNode k = n.getChildNode k) := by
  constructor
  · rw [Node.getChildNode_setChildNode]
    simp
  · intro k hk
    rw [Node.getChildNode_setChildNode, if_neg hk]

/-- C9 witness: a node that already has a child under key 3; the child is
replaced and key 5 is untouched. -/
theorem claim_c9_witness :
    (((Node.mk [(3, Node.mk [] (some 0)), (5, Node.mk [] (some 1))] none).setChildNode
        3 Node.empty).getChildNode 3 = some Node.empty) ∧
    (((Node.mk [(3, Node.mk [] (some 0)), (5, Node.mk [] (some 1))] none).setChildNode
        3 Node.empty).getChildNode 5 =
      (Node.mk [(3, Node.mk [] (some 0)), (5, Node.mk [] (some 1))] none).getChildNode 5) :=
  ⟨(claim_c9 (Node.mk [(3, Node.mk [] (some 0)), (5, Node.mk [] (some 1))] none)
      3 Node.empty).1,
    (claim_c9 (Node.mk [(3, Node.mk [] (some 0)), (5, Node.mk [] (some 1))] none)
      3 Node.empty).2 5 (by decide)⟩

/-! ## Claim C10 -/

theorem CxxTrie.mergeConstruct_snd_length (tries : List CxxTrie)
    (trieBeginIndex : Nat) (keys : List Nat) :
    ∀ m, (((List.range m).foldl
      (fun st i =>
        let donor := (st.2.getD (trieBeginIndex + i) ⟨none⟩).rootNode
        (⟨some ((st.1.rootNode.getD Node.empty).setChildNode (keys.getD i 0)
            (donor.getD Node.empty))⟩,
          st.2.set (trieBeginIndex + i) ⟨none⟩))
      ((⟨some Node.empty⟩ : CxxTrie), tries)).2).length = tries.length := by
  intro m
  induction m with
  | zero => simp
  | succ m ih =>
      rw [List.range_succ, List.foldl_append]
      simp only [List.foldl_cons, List.foldl_nil]
      rw [List.length_set]
      exact ih

theorem CxxTrie.mergeConstruct_snd_getD (tries : List CxxTrie)
    (trieBeginIndex : Nat) (keys : List Nat)
    (h : trieBeginIndex + keys.length ≤ tries.length) :
    ∀ m, m ≤ keys.length → ∀ i, i < m →
      (((List.range m).foldl
        (fun st i =>
          let donor := (st.2.getD (trieBeginIndex + i) ⟨none⟩).rootNode
          (⟨some ((st.1.rootNode.getD Node.empty).setChildNode (keys.getD i 0)
              (donor.getD Node.empty))⟩,
            st.2.set (trieBeginIndex + i) ⟨none⟩))
        ((⟨some Node.empty⟩ : CxxTrie), tries)).2).getD (trieBeginIndex + i)
          ⟨some Node.empty⟩ = ⟨none⟩ := by
  intro m
  induction m with
  | zero =>
      intro _ i hi
      cases hi
  | succ m ih =>
      intro hm i hi
      rw [List.range_succ, List.foldl_append]
      simp only [List.foldl_cons, List.foldl_nil]
      by_cases him : i = m
      · subst him
        have hlen : trieBeginIndex + i < tries.length := by omega
        rw [List.getD, List.get?_eq_getElem?]
        rw [List.getElem?_set_self]
        · rfl
        · rw [CxxTrie.mergeConstruct_snd_length]
          omega
      · have hne : trieBeginIndex + m ≠ trieBeginIndex + i := by omega
        rw [List.getD, List.get?_eq_getElem?, List.getElem?_set_ne hne]
        rw [← List.get?_eq_getElem?, ← List.getD]
        exact ih (by omega) i (by omega)

/-- C10: after the merge constructor
`Trie(tries, trieBeginIndex, keys)` returns, every donor trie
`tries[trieBeginIndex] .. tries[trieBeginIndex + keys.size() - 1]` holds a
null root pointer, so `getRootNode` on a donor dereferences null (modelled as
`none`): donor tries are unusable and violate the root-is-non-null data-model
property. -/
theorem claim_c10 (tries : List CxxTrie) (trieBeginIndex : Nat)
    (keys : List Nat) (h : trieBeginIndex + keys.length ≤ tries.length) :
    ∀ i, i < keys.length →
      ((CxxTrie.mergeConstruct tries trieBeginIndex keys).2.getD
        (trieBeginIndex + i) ⟨some Node.empty⟩).getRootNode = none := by
  intro i hi
  have := CxxTrie.mergeConstruct_snd_getD tries trieBeginIndex keys h
    keys.length (Nat.le_refl _) i hi
  rw [CxxTrie.mergeConstruct]
  rw [this]
  rfl

/-- C10 witness. -/
theorem claim_c10_witness :
    ((CxxTrie.mergeConstruct
        [(⟨some Node.empty⟩ : CxxTrie), ⟨some Node.empty⟩] 0 [7, 8]).2.getD 0
      ⟨some Node.empty⟩).getRootNode = none := by
  have h := claim_c10 [(⟨some Node.empty⟩ : CxxTrie), ⟨some Node.empty⟩] 0 [7, 8]
    (by decide) 0 (by decide)
  simpa using h

/-! ## Base-256 digit arithmetic for the bucket sort -/

theorem bucketIndexOf_lt (L : Nat) (s : List Nat) (hlen : L ≤ s.length)
    (hb : ∀ b ∈ s, b < 256) : bucketIndexOf L s < 256 ^ L := by
  induction L generalizing s with
  | zero => simp [bucketIndexOf]
  | succ L ih =>
      cases s with
      | nil => simp at hlen
      | cons a s' =>
          have ha : a < 256 := hb a (List.mem_cons_self _ _)
          have hr : bucketIndexOf L s' < 256 ^ L :=
            ih s' (by simpa using Nat.le_of_succ_le_succ hlen)
              (fun b hbm => hb b (List.mem_cons_of_mem _ hbm))
          have : a * 256 ^ L + bucketIndexOf L s' < (a + 1) * 256 ^ L := by
            rw [Nat.succ_mul]
            omega
          calc bucketIndexOf (L + 1) (a :: s')
              = a * 256 ^ L + bucketIndexOf L s' := by
                simp [bucketIndexOf]
            _ < (a + 1) * 256 ^ L := this
            _ ≤ 256 * 256 ^ L := Nat.mul_le_mul_right _ (by omega)
            _ = 256 ^ (L + 1) := by rw [Nat.pow_succ]; ring

theorem digitsOfIndex_add_mul (L : Nat) :
    ∀ a r, digitsOfIndex L (a * 256 ^ L + r) = digitsOfIndex L r := by
  induction L with
  | zero => intro a r; rfl
  | succ L ih =>
      intro a r
      have hpow : (0:Nat) < 256 ^ L := Nat.pos_pow_of_pos L (by omega)
      have hx : a * 256 ^ (L + 1) + r = (a * 256) * 256 ^ L + r := by
        rw [Nat.pow_succ]
        ring
      rw [digitsOfIndex, digitsOfIndex, hx]
      have hhead : (a * 256 * 256 ^ L + r) / 256 ^ L % 256 = r / 256 ^ L % 256 := by
        rw [Nat.add_comm, Nat.add_mul_div_right _ _ hpow, Nat.add_mul_mod_self_right]
      rw [hhead, ih (a * 256) r]

theorem digitsOfIndex_length (L : Nat) (b : Nat) :
    (digitsOfIndex L b).length = L := by
  induction L generalizing b with
  | zero => rfl
  | succ L ih => simp [digitsOfIndex, ih]

theorem digitsOfIndex_bucketIndexOf (L : Nat) (s : List Nat)
    (hlen : L ≤ s.length) (hb : ∀ b ∈ s, b < 256) :
    digitsOfIndex L (bucketIndexOf L s) = s.take L := by
  induction L generalizing s with
  | zero => simp [digitsOfIndex]
  | succ L ih =>
      cases s with
      | nil => simp at hlen
      | cons a s' =>
          have ha : a < 256 := hb a (List.mem_cons_self _ _)
          have hr : bucketIndexOf L s' < 256 ^ L :=
            bucketIndexOf_lt L s' (by simpa using Nat.le_of_succ_le_succ hlen)
              (fun b hbm => hb b (List.mem_cons_of_mem _ hbm))
          have hpow : (0:Nat) < 256 ^ L := Nat.pos_pow_of_pos L (by omega)
          have hval : bucketIndexOf (L + 1) (a :: s') =
              a * 256 ^ L + bucketIndexOf L s' := by
            simp [bucketIndexOf]
          rw [hval, digitsOfIndex]
          have hdiv : (a * 256 ^ L + bucketIndexOf L s') / 256 ^ L = a := by
            rw [Nat.add_comm, Nat.add_mul_div_right _ _ hpow,
              Nat.div_eq_of_lt hr]
            omega
          rw [hdiv, Nat.mod_eq_of_lt ha, digitsOfIndex_add_mul L a _,
            ih s' (by simpa using Nat.le_of_succ_le_succ hlen)
              (fun b hbm => hb b (List.mem_cons_of_mem _ hbm))]
          rfl

theorem lexLt_digitsOfIndex (L : Nat) :
    ∀ b b', b < b' → b' < 256 ^ L →
      LexLt (digitsOfIndex L b) (digitsOfIndex L b') := by
  induction L with
  | zero =>
      intro b b' hbb hb'
      simp at hb'
      omega
  | succ L ih =>
      intro b b' hbb hb'
      have hpow : (0:Nat) < 256 ^ L := Nat.pos_pow_of_pos L (by omega)
      have hdivle : b / 256 ^ L ≤ b' / 256 ^ L := Nat.div_le_div_right (by omega)
      have hdivlt : b' / 256 ^ L < 256 := by
        rw [Nat.div_lt_iff_lt_mul hpow]
        have hps : 256 ^ (L + 1) = 256 * 256 ^ L := by rw [Nat.pow_succ]; ring
        omega
      have hmod' : b' / 256 ^ L % 256 = b' / 256 ^ L :=
        Nat.mod_eq_of_lt hdivlt
      have hmod : b / 256 ^ L % 256 = b / 256 ^ L :=
        Nat.mod_eq_of_lt (Nat.lt_of_le_of_lt hdivle hdivlt)
      rw [digitsOfIndex, digitsOfIndex, hmod, hmod']
      rcases Nat.lt_or_ge (b / 256 ^ L) (b' / 256 ^ L) with hlt | hge
      · exact LexLt.head _ _ _ _ hlt
      · have hdeq : b / 256 ^ L = b' / 256 ^ L := Nat.le_antisymm hdivle hge
        have hd1 := Nat.div_add_mod b (256 ^ L)
        have hd2 := Nat.div_add_mod b' (256 ^ L)
        have hb2 : b = b / 256 ^ L * 256 ^ L + b % 256 ^ L := by
          rw [Nat.mul_comm]
          omega
        have hb2' : b' = b' / 256 ^ L * 256 ^ L + b' % 256 ^ L := by
          rw [Nat.mul_comm]
          omega
        rw [hdeq] at hd1
        have hmlt : b % 256 ^ L < b' % 256 ^ L := by omega
        have hmb' : b' % 256 ^ L < 256 ^ L := Nat.mod_lt _ hpow
        have he1 : digitsOfIndex L b = digitsOfIndex L (b % 256 ^ L) := by
          conv_lhs => rw [hb2]
          exact digitsOfIndex_add_mul L _ _
        have he2 : digitsOfIndex L b' = digitsOfIndex L (b' % 256 ^ L) := by
          conv_lhs => rw [hb2']
          exact digitsOfIndex_add_mul L _ _
        rw [hdeq, he1, he2]
        exact LexLt.tail _ _ _ (ih _ _ hmlt hmb')

/-! ## Characterization of `bucketSortStrings` -/

theorem bucketAccum_foldl_fst (strings : List (List Nat)) (L : Nat) :
    ∀ (idxs : List Nat) (acc : (Nat → List Nat) × List Nat) (b : Nat),
      (idxs.foldl
        (fun (acc : (Nat → List Nat) × List Nat) i =>
          if L ≤ (strings.getD i []).length then
            ((fun b => if b = bucketIndexOf L (strings.getD i [])
                then acc.1 b ++ [i] else acc.1 b), acc.2)
          else
            (acc.1, acc.2 ++ [i])) acc).1 b =
      acc.1 b ++ idxs.filter
        (fun i => decide (L ≤ (strings.getD i []).length) &&
          (bucketIndexOf L (strings.getD i []) == b)) := by
  intro idxs
  induction idxs with
  | nil => intro acc b; simp
  | cons i rest ih =>
      intro acc b
      rw [List.foldl_cons, List.filter_cons]
      by_cases hlong : L ≤ (strings.getD i []).length
      · rw [if_pos hlong, ih]
        by_cases hbeq : bucketIndexOf L (strings.getD i []) = b
        · have hbeq' : b = bucketIndexOf L (strings.getD i []) := hbeq.symm
          simp only [hbeq', if_pos rfl]
          have hp : (decide (L ≤ (strings.getD i []).length) &&
              (bucketIndexOf L (strings.getD i []) ==
                bucketIndexOf L (strings.getD i []))) = true := by
            rw [decide_eq_true hlong, beq_self_eq_true, Bool.and_true]
          rw [hp]
          simp
        · have hbne : ¬ (b = bucketIndexOf L (strings.getD i [])) :=
            fun e => hbeq e.symm
          simp only [if_neg hbne]
          have hp : (decide (L ≤ (strings.getD i []).length) &&
              (bucketIndexOf L (strings.getD i []) == b)) = false := by
            rw [beq_eq_false_iff_ne.mpr hbeq, Bool.and_false]
          rw [hp]
          simp
      · rw [if_neg hlong, ih]
        have hp : (decide (L ≤ (strings.getD i []).length) &&
            (bucketIndexOf L (strings.getD i []) == b)) = false := by
          rw [decide_eq_false hlong, Bool.false_and]
        rw [hp]
        simp

theorem bucketAccum_foldl_snd (strings : List (List Nat)) (L : Nat) :
    ∀ (idxs : List Nat) (acc : (Nat → List Nat) × List Nat),
      (idxs.foldl
        (fun (acc : (Nat → List Nat) × List Nat) i =>
          if L ≤ (strings.getD i []).length then
            ((fun b => if b = bucketIndexOf L (strings.getD i [])
                then acc.1 b ++ [i] else acc.1 b), acc.2)
          else
            (acc.1, acc.2 ++ [i])) acc).2 =
      acc.2 ++ idxs.filter (fun i => decide ((strings.getD i []).length < L)) := by
  intro idxs
  induction idxs with
  | nil => intro acc; simp
  | cons i rest ih =>
      intro acc
      rw [List.foldl_cons, List.filter_cons]
      by_cases hlong : L ≤ (strings.getD i []).length
      · rw [if_pos hlong, ih]
        have hp : decide ((strings.getD i []).length < L) = false :=
          decide_eq_false (by omega)
        rw [hp]
        simp
      · rw [if_neg hlong, ih]
        have hp : decide ((strings.getD i []).length < L) = true :=
          decide_eq_true (by omega)
        rw [hp]
        simp

theorem bucketAccum_fst_spec (strings : List (List Nat)) (L : Nat) (b : Nat) :
    (bucketAccum strings L).1 b =
      (List.range strings.length).filter
        (fun i => decide (L ≤ (strings.getD i []).length) &&
          (bucketIndexOf L (strings.getD i []) == b)) := by
  rw [bucketAccum, bucketAccum_foldl_fst]
  rfl

theorem bucketAccum_snd_spec (strings : List (List Nat)) (L : Nat) :
    (bucketAccum strings L).2 =
      (List.range strings.length).filter
        (fun i => decide ((strings.getD i []).length < L)) := by
  rw [bucketAccum, bucketAccum_foldl_snd]
  rfl

theorem mem_bucketAccum (strings : List (List Nat)) (L : Nat) (b i : Nat) :
    i ∈ (bucketAccum strings L).1 b ↔
      (i < strings.length ∧ L ≤ (strings.getD i []).length ∧
        bucketIndexOf L (strings.getD i []) = b) := by
  rw [bucketAccum_fst_spec]
  simp [List.mem_filter, List.mem_range, and_assoc]

theorem bucketAccum_fst_sorted (strings : List (List Nat)) (L : Nat) (b : Nat) :
    ((bucketAccum strings L).1 b).Pairwise (· < ·) := by
  rw [bucketAccum_fst_spec]
  exact List.Pairwise.filter _ (List.pairwise_lt_range _)

theorem bucketEmit_foldl (bucketVectors : Nat → List Nat) (L : Nat) :
    ∀ (bs : List Nat) (res : List (List Nat) × List (List Nat)),
      bs.foldl
        (fun (res : List (List Nat) × List (List Nat)) b =>
          if bucketVectors b = [] then res
          else (res.1 ++ [digitsOfIndex L b], res.2 ++ [bucketVectors b])) res =
      (res.1 ++ (bs.filter
          (fun b => !decide (bucketVectors b = []))).map (digitsOfIndex L),
        res.2 ++ (bs.filter
          (fun b => !decide (bucketVectors b = []))).map bucketVectors) := by
  intro bs
  induction bs with
  | nil => intro res; simp
  | cons b rest ih =>
      intro res
      rw [List.foldl_cons, List.filter_cons]
      by_cases hz : bucketVectors b = []
      · rw [if_pos hz, ih]
        have hp : (!decide (bucketVectors b = [])) = false := by
          rw [decide_eq_true hz]
          rfl
        rw [hp]
        simp
      · rw [if_neg hz, ih]
        have hp : (!decide (bucketVectors b = [])) = true := by
          rw [decide_eq_false hz]
          rfl
        rw [hp]
        simp

theorem bucketSortStrings_eq (strings : List (List Nat)) (L : Nat) :
    bucketSortStrings strings L =
      (((List.range (256 ^ L)).filter
          (fun b => !decide ((bucketAccum strings L).1 b = []))).map
            (digitsOfIndex L),
        ((List.range (256 ^ L)).filter
          (fun b => !decide ((bucketAccum strings L).1 b = []))).map
            (bucketAccum strings L).1,
        (List.range strings.length).filter
          (fun i => decide ((strings.getD i []).length < L))) := by
  rw [bucketSortStrings]
  rw [show bucketEmit (bucketAccum strings L).1 L =
    ((List.range (256 ^ L)).foldl
      (fun (res : List (List Nat) × List (List Nat)) b =>
        if (bucketAccum strings L).1 b = [] then res
        else (res.1 ++ [digitsOfIndex L b],
          res.2 ++ [(bucketAccum strings L).1 b])) ([], [])) from rfl]
  rw [bucketEmit_foldl]
  rw [← bucketAccum_snd_spec]
  simp

theorem getD_mem_of_lt (strings : List (List Nat)) (i : Nat)
    (h : i < strings.length) : strings.getD i [] ∈ strings := by
  rw [List.getD_eq_getElem _ _ h]
  exact List.getElem_mem h

/-! ## Claim C5 -/

/-- C5: for every input collection (of byte values `< 256`) and prefix
length `L > 0`, `bucketSortStrings` emits the non-empty bucket prefixes in
strictly ascending lexicographic order; every index of a string of length
`≥ L` lands in exactly the bucket keyed by its first `L` bytes; every index
of a shorter string lands in `shortStringIndices`; and every index appears in
exactly one of the two. -/
theorem claim_c5 (strings : List (List Nat)) (L : Nat) (hL : 0 < L)
    (hB : ∀ s ∈ strings, ∀ b ∈ s, b < 256) :
    ((bucketSortStrings strings L).1.Pairwise LexLt) ∧
    ((bucketSortStrings strings L).1.length =
      (bucketSortStrings strings L).2.1.length) ∧
    (∀ i, i ∈ (bucketSortStrings strings L).2.2 ↔
      (i < strings.length ∧ (strings.getD i []).length < L)) ∧
    (∀ i, i < strings.length → L ≤ (strings.getD i []).length →
      ∃ P B, (P, B) ∈ (bucketSortStrings strings L).1.zip
          (bucketSortStrings strings L).2.1 ∧
        P = (strings.getD i []).take L ∧ i ∈ B ∧
        (∀ P' B', (P', B') ∈ (bucketSortStrings strings L).1.zip
            (bucketSortStrings strings L).2.1 → i ∈ B' → P' = P ∧ B' = B)) ∧
    (∀ i P B, (P, B) ∈ (bucketSortStrings strings L).1.zip
        (bucketSortStrings strings L).2.1 → i ∈ B →
      (i < strings.length ∧ L ≤ (strings.getD i []).length)) := by
  have hzip : (bucketSortStrings strings L).1.zip
      (bucketSortStrings strings L).2.1 =
      ((List.range (256 ^ L)).filter
        (fun b => !decide ((bucketAccum strings L).1 b = []))).map
          (fun b => (digitsOfIndex L b, (bucketAccum strings L).1 b)) := by
    rw [bucketSortStrings_eq]
    exact List.zip_map' _ _ _
  refine ⟨?_, ?_, ?_, ?_, ?_⟩
  · rw [bucketSortStrings_eq]
    rw [List.pairwise_map]
    refine List.Pairwise.imp_of_mem ?_
      (List.Pairwise.filter _ (List.pairwise_lt_range _))
    intro a b ha hb hab
    have hblt : b < 256 ^ L := by
      have := (List.mem_filter.mp hb).1
      simpa using this
    exact lexLt_digitsOfIndex L a b hab hblt
  · rw [bucketSortStrings_eq]
    simp
  · intro i
    rw [bucketSortStrings_eq]
    simp [List.mem_filter, List.mem_range]
  · intro i hiN hlong
    have hbytes : ∀ b ∈ strings.getD i [], b < 256 :=
      hB _ (getD_mem_of_lt strings i hiN)
    have hbin : i ∈ (bucketAccum strings L).1
        (bucketIndexOf L (strings.getD i [])) :=
      (mem_bucketAccum strings L _ i).mpr ⟨hiN, hlong, rfl⟩
    have hfb : (bucketAccum strings L).1
        (bucketIndexOf L (strings.getD i [])) ≠ [] :=
      List.ne_nil_of_mem hbin
    have hblt : bucketIndexOf L (strings.getD i []) < 256 ^ L :=
      bucketIndexOf_lt L _ hlong hbytes
    have hbfl : bucketIndexOf L (strings.getD i []) ∈
        (List.range (256 ^ L)).filter
          (fun b => !decide ((bucketAccum strings L).1 b = [])) := by
      rw [List.mem_filter]
      refine ⟨List.mem_range.mpr hblt, ?_⟩
      simpa using hfb
    refine ⟨digitsOfIndex L (bucketIndexOf L (strings.getD i [])),
      (bucketAccum strings L).1 (bucketIndexOf L (strings.getD i [])),
      ?_, ?_, hbin, ?_⟩
    · rw [hzip]
      exact List.mem_map_of_mem _ hbfl
    · exact digitsOfIndex_bucketIndexOf L _ hlong hbytes
    · intro P' B' hmem hi'
      rw [hzip] at hmem
      obtain ⟨b', hb'fl, hb'eq⟩ := List.mem_map.mp hmem
      have hB' : B' = (bucketAccum strings L).1 b' := by
        have := congrArg Prod.snd hb'eq
        simpa using this.symm
      have hP' : P' = digitsOfIndex L b' := by
        have := congrArg Prod.fst hb'eq
        simpa using this.symm
      have hib' : bucketIndexOf L (strings.getD i []) = b' := by
        have := (mem_bucketAccum strings L b' i).mp (hB' ▸ hi')
        exact this.2.2
      subst hib'
      exact ⟨hP', hB'⟩
  · intro i P B hmem hi
    rw [hzip] at hmem
    obtain ⟨b', hb'fl, hb'eq⟩ := List.mem_map.mp hmem
    have hB' : B = (bucketAccum strings L).1 b' := by
      have := congrArg Prod.snd hb'eq
      simpa using this.symm
    have := (mem_bucketAccum strings L b' i).mp (hB' ▸ hi)
    exact ⟨this.1, this.2.1⟩

/-- C5 witness. -/
theorem claim_c5_witness :
    ((bucketSortStrings [[1], [0, 2], []] 1).1.Pairwise LexLt) ∧
    (2 ∈ (bucketSortStrings [[1], [0, 2], []] 1).2.2 ↔
      (2 < ([[1], [0, 2], []] : List (List Nat)).length ∧
        (([[1], [0, 2], []] : List (List Nat)).getD 2 []).length < 1)) ∧
    (∃ P B, (P, B) ∈ (bucketSortStrings [[1], [0, 2], []] 1).1.zip
        (bucketSortStrings [[1], [0, 2], []] 1).2.1 ∧
      P = (([[1], [0, 2], []] : List (List Nat)).getD 0 []).take 1 ∧ 0 ∈ B ∧
      (∀ P' B', (P', B') ∈ (bucketSortStrings [[1], [0, 2], []] 1).1.zip
          (bucketSortStrings [[1], [0, 2], []] 1).2.1 → 0 ∈ B' →
        P' = P ∧ B' = B)) := by
  have h := claim_c5 [[1], [0, 2], []] 1 (by decide) (by decide)
  exact ⟨h.1, h.2.2.1 2, h.2.2.2.1 0 (by decide) (by decide)⟩

/-! ## Claims C2 and C3: the empty-bucket path of the parallel constructor -/

theorem coarsenN_nil : ∀ n, coarsenN n [] = [] := by
  intro n
  induction n with
  | zero => rfl
  | succ n ih => rw [coarsenN, coarsenStep]; exact ih

/-- C3: the claim (construction from an empty collection succeeds for any
`parallelPrefixLength` and any worker count) is *right* and the code is
wrong: with `parallelPrefixLength ≥ 1` and more than one thread, the bucket
list is empty, `coarsenBucketTries` returns immediately each round, and the
constructor then executes `*this = std::move(bucketTries[0U])` on an *empty*
`std::vector` — undefined behavior (modelled as `none`) instead of an empty
queryable trie. -/
theorem claim_c3 (L numThreads : Nat) (hL : 1 ≤ L) (ht : 2 ≤ numThreads) :
    TrieOfStrings [] L numThreads = none := by
  rw [TrieOfStrings, if_neg (by omega : ¬ (L = 0 ∨ numThreads = 1))]
  have hf : ∀ b, (bucketAccum [] L).1 b = [] := by
    intro b
    rw [bucketAccum_fst_spec]
    simp
  have h1 : (bucketSortStrings [] L).1 = [] := by
    rw [bucketSortStrings_eq]
    simp only [hf, decide_eq_true_eq]
    simp
  simp only [h1]
  rw [show ([] : List (List Nat)).zip
      (createBucketTries [] L (bucketSortStrings [] L).2.1) = [] from rfl]
  rw [coarsenN_nil]

/-- C3 witness. -/
theorem claim_c3_witness : TrieOfStrings [] 2 4 = none :=
  claim_c3 2 4 (by decide) (by decide)

/-- C2: the claim (parallel and sequential construction agree for every
input, every `L ≥ 0` and every worker count) is *right* per the spec and the
code is wrong: when no string reaches length `L` (here the collection
containing one empty string, with `L = 1` and 2 threads), all buckets are
empty, so after coarsening `bucketTries` is still empty and the constructor
indexes `bucketTries[0U]` out of bounds (undefined behavior, modelled as
`none`) — while the sequential build returns a trie answering `{0}` for the
empty prefix. -/
theorem claim_c2 :
    TrieOfStrings [[]] 1 2 = none ∧
    (Trie.ofStringsSequential [[]]).searchPrefix [] = [0] := by
  constructor
  · rw [TrieOfStrings, if_neg (by omega : ¬ ((1:Nat) = 0 ∨ (2:Nat) = 1))]
    have hf : ∀ b, (bucketAccum [[]] 1).1 b = [] := by
      intro b
      rw [bucketAccum_fst_spec]
      simp
    have h1 : (bucketSortStrings [[]] 1).1 = [] := by
      rw [bucketSortStrings_eq]
      simp only [hf, decide_eq_true_eq]
      simp
    simp only [h1]
    rw [show ([] : List (List Nat)).zip
        (createBucketTries [[]] 1 (bucketSortStrings [[]] 1).2.1) = [] from rfl]
    rw [coarsenN_nil]
  · decide

/-! ## Lexicographic order lemmas -/

theorem LexLt.not_nil_right (l : List Nat) : ¬ LexLt l [] := by
  intro h
  cases h

theorem LexLt.asymm : ∀ {l m : List Nat}, LexLt l m → ¬ LexLt m l := by
  intro l m h
  induction h with
  | nil b bs => exact LexLt.not_nil_right _
  | head a b as bs hab =>
      intro h'
      cases h' with
      | head _ _ _ _ hba => omega
      | tail _ _ _ _ => omega
  | tail a as bs hlt ih =>
      intro h'
      cases h' with
      | head _ _ _ _ hba => omega
      | tail _ _ _ h'' => exact ih h''

theorem LexLt.irrefl (l : List Nat) : ¬ LexLt l l := fun h => LexLt.asymm h h

theorem LexLt.take_of_eq_length :
    ∀ {p q : List Nat}, LexLt p q → p.length = q.length →
      ∀ m, LexLt (p.take m) (q.take m) ∨ p.take m = q.take m := by
  intro p q h
  induction h with
  | nil b bs =>
      intro hlen
      simp at hlen
  | head a b as bs hab =>
      intro _ m
      cases m with
      | zero => right; rfl
      | succ m => left; exact LexLt.head a b _ _ hab
  | tail a as bs hlt ih =>
      intro hlen m
      cases m with
      | zero => right; rfl
      | succ m =>
          rcases ih (by simpa using hlen) m with h1 | h1
          · left
            exact LexLt.tail a _ _ h1
          · right
            simp [List.take_succ_cons, h1]

theorem LexLt.getD_last_of_take_eq :
    ∀ {p q : List Nat}, LexLt p q → ∀ {m : Nat}, p.length = m + 1 →
      q.length = m + 1 → p.take m = q.take m → p.getD m 0 < q.getD m 0 := by
  intro p q h
  induction h with
  | nil b bs =>
      intro m hp _ _
      simp at hp
  | head a b as bs hab =>
      intro m hp hq htake
      cases m with
      | zero => simpa using hab
      | succ m =>
          rw [List.take_succ_cons, List.take_succ_cons] at htake
          have : a = b := by
            have := congrArg (fun l => l.headD 0) htake
            simpa using this
          omega
  | tail a as bs hlt ih =>
      intro m hp hq htake
      cases m with
      | zero =>
          have has : as = [] := by
            cases as with
            | nil => rfl
            | cons x xs => simp at hp
          have hbs : bs = [] := by
            cases bs with
            | nil => rfl
            | cons x xs => simp at hq
          subst has
          subst hbs
          cases hlt
      | succ m =>
          rw [List.take_succ_cons, List.take_succ_cons] at htake
          have htake' : as.take m = bs.take m := by
            injection htake
          have := ih (by simpa using hp) (by simpa using hq) htake'
          simpa [List.getD_cons_succ] using this

/-! ## Generic association-list helpers for the merge -/

theorem find?_of_unique_pair (l : List (Nat × Trie)) (p : Nat × Trie → Bool)
    (x : Nat × Trie) (hx : x ∈ l) (hpx : p x = true)
    (huniq : ∀ y ∈ l, p y = true → y = x) : l.find? p = some x := by
  induction l with
  | nil => cases hx
  | cons a l' ih =>
      by_cases hpa : p a = true
      · have : a = x := huniq a (List.mem_cons_self _ _) hpa
        subst this
        simp [List.find?_cons, hpa]
      · have hb : p a = false := by simpa using hpa
        have hax : a ≠ x := fun he => hpa (he ▸ hpx)
        have hx' : x ∈ l' := by
          rcases List.mem_cons.mp hx with he | hm
          · exact absurd he.symm hax
          · exact hm
        simp only [List.find?_cons, hb]
        exact ih hx' (fun y hy hpy => huniq y (List.mem_cons_of_mem _ hy) hpy)

theorem eq_of_fst_eq_of_nodup_keys (l : List (Nat × Trie))
    (h : (l.map Prod.fst).Nodup) {x y : Nat × Trie}
    (hx : x ∈ l) (hy : y ∈ l) (he : x.1 = y.1) : x = y := by
  induction l with
  | nil => cases hx
  | cons z l' ih =>
      have hz : z.1 ∉ l'.map Prod.fst := (List.nodup_cons.mp (by simpa using h)).1
      have h' : (l'.map Prod.fst).Nodup := (List.nodup_cons.mp (by simpa using h)).2
      rcases List.mem_cons.mp hx with hex | hmx
      · rcases List.mem_cons.mp hy with hey | hmy
        · rw [hex, hey]
        · exfalso
          apply hz
          rw [← hex, he]
          exact List.mem_map_of_mem Prod.fst hmy
      · rcases List.mem_cons.mp hy with hey | hmy
        · exfalso
          apply hz
          rw [hey] at he
          exact he ▸ List.mem_map_of_mem Prod.fst hmx
        · exact ih h' hmx hmy

theorem ofTries_foldl_getChildNode :
    ∀ (zs : List (Nat × Trie)) (n0 : Node) (k : Nat),
      (zs.foldl (fun r q => r.setChildNode q.1 q.2.rootNode) n0).getChildNode k =
        (match zs.reverse.find? (fun q => q.1 == k) with
          | some q => some q.2.rootNode
          | none => n0.getChildNode k) := by
  intro zs
  induction zs with
  | nil => intro n0 k; simp
  | cons q zs' ih =>
      intro n0 k
      rw [List.foldl_cons, ih, List.reverse_cons, List.find?_append]
      cases hf : zs'.reverse.find? (fun q => q.1 == k) with
      | some q' => rfl
      | none =>
          simp only [Option.none_or]
          by_cases hqk : q.1 = k
          · have hb : (q.1 == k) = true := beq_iff_eq.mpr hqk
            simp only [List.find?_cons, hb]
            rw [Node.getChildNode_setChildNode, if_pos hqk.symm]
          · have hb : (q.1 == k) = false := by simpa using hqk
            simp only [List.find?_cons, hb, List.find?_nil]
            rw [Node.getChildNode_setChildNode, if_neg (fun e => hqk e.symm)]

theorem ofTries_foldl_stringIndex :
    ∀ (zs : List (Nat × Trie)) (n0 : Node),
      (zs.foldl (fun r q => r.setChildNode q.1 q.2.rootNode) n0).stringIndex =
        n0.stringIndex := by
  intro zs
  induction zs with
  | nil => intro n0; rfl
  | cons q zs' ih =>
      intro n0
      rw [List.foldl_cons, ih, Node.stringIndex_setChildNode]

theorem ofTries_foldl_wf :
    ∀ (zs : List (Nat × Trie)) (n0 : Node), n0.WF →
      (∀ q ∈ zs, q.2.rootNode.WF) →
      (zs.foldl (fun r q => r.setChildNode q.1 q.2.rootNode) n0).WF := by
  intro zs
  induction zs with
  | nil => intro n0 h0 _; exact h0
  | cons q zs' ih =>
      intro n0 h0 hall
      rw [List.foldl_cons]
      exact ih _ (h0.setChildNode (hall q (List.mem_cons_self _ _)) _)
        (fun q' hq' => hall q' (List.mem_cons_of_mem _ hq'))

/-! ## List helpers for the coarsening proof -/

theorem drop_of_length_succ (l : List Nat) (m : Nat) (h : l.length = m + 1) :
    l.drop m = [l.getD m 0] := by
  have hlt : m < l.length := by omega
  rw [List.drop_eq_getElem_cons hlt, List.getD_eq_getElem _ _ hlt]
  have : l.drop (m + 1) = [] := List.drop_eq_nil_of_le (by omega)
  rw [this]

theorem take_length_of_succ (l : List Nat) (m : Nat) (h : l.length = m + 1) :
    (l.take m).length = m := by
  rw [List.length_take]
  omega

theorem take_append_getD (l : List Nat) (m : Nat) (h : l.length = m + 1) :
    l.take m ++ [l.getD m 0] = l := by
  rw [← drop_of_length_succ l m h]
  exact List.take_append_drop m l

theorem prefix_take_eq {p v : List Nat} (h : p <+: v) (m : Nat)
    (hm : p.length = m) : v.take m = p := by
  rw [← hm]
  exact (List.prefix_iff_eq_take.mp h).symm

theorem dropWhile_head_false (p : List Nat × Trie → Bool) :
    ∀ (l : List (List Nat × Trie)) (r0 : List Nat × Trie)
      (rm' : List (List Nat × Trie)),
      l.dropWhile p = r0 :: rm' → p r0 = false := by
  intro l
  induction l with
  | nil => intro r0 rm' h; cases h
  | cons a l' ih =>
      intro r0 rm' h
      rw [List.dropWhile_cons] at h
      by_cases hpa : p a = true
      · rw [if_pos hpa] at h
        exact ih r0 rm' h
      · rw [if_neg hpa] at h
        have : a = r0 := by injection h
        rw [← this]
        simpa using hpa

theorem dropWhile_take_ne (ℓ : Nat) (pfx : List Nat)
    (rest : List (List Nat × Trie))
    (hlen : ∀ q ∈ rest, q.1.length = ℓ + 1) (hplen : pfx.length = ℓ + 1)
    (hsorted : (rest.map Prod.fst).Pairwise LexLt)
    (hhead : ∀ q ∈ rest, LexLt pfx q.1) :
    ∀ q ∈ rest.dropWhile (fun q => q.1.take ℓ == pfx.take ℓ),
      ¬ (q.1.take ℓ = pfx.take ℓ) := by
  intro q hq
  have hrm_sub : List.Sublist
      (rest.dropWhile (fun q => q.1.take ℓ == pfx.take ℓ)) rest :=
    List.dropWhile_sublist _
  cases hrm : rest.dropWhile (fun q => q.1.take ℓ == pfx.take ℓ) with
  | nil => rw [hrm] at hq; cases hq
  | cons r0 rm' =>
      rw [hrm] at hq hrm_sub
      have hr0ne : ¬ (r0.1.take ℓ = pfx.take ℓ) := by
        have hhd := dropWhile_head_false
          (fun q => q.1.take ℓ == pfx.take ℓ) rest r0 rm' hrm
        simpa using hhd
      have hr0rest : r0 ∈ rest := hrm_sub.subset (List.mem_cons_self _ _)
      have hpr0 : LexLt pfx r0.1 := hhead r0 hr0rest
      intro hqeq
      rcases List.mem_cons.mp hq with he | hq'
      · exact hr0ne (he ▸ hqeq)
      · have hqrest : q ∈ rest := hrm_sub.subset (List.mem_cons_of_mem _ hq')
        have hr0q : LexLt r0.1 q.1 := by
          have hpw : ((r0 :: rm').map Prod.fst).Pairwise LexLt :=
            hsorted.sublist (hrm_sub.map Prod.fst)
          rw [List.map_cons, List.pairwise_cons] at hpw
          exact hpw.1 q.1 (List.mem_map_of_mem Prod.fst hq')
      
        have h1 : LexLt (pfx.take ℓ) (r0.1.take ℓ) ∨
            pfx.take ℓ = r0.1.take ℓ := by
          rcases LexLt.take_of_eq_length hpr0
            (by rw [hplen, hlen r0 hr0rest]) ℓ with h | h
          · exact Or.inl h
          · exact Or.inr h
        have h2 : LexLt (r0.1.take ℓ) (q.1.take ℓ) ∨
            r0.1.take ℓ = q.1.take ℓ := by
          rcases LexLt.take_of_eq_length hr0q
            (by rw [hlen r0 hr0rest, hlen q hqrest]) ℓ with h | h
          · exact Or.inl h
          · exact Or.inr h
        rw [hqeq] at h2
        rcases h1 with h1 | h1
        · rcases h2 with h2 | h2
          · exact LexLt.asymm h1 h2
          · exact hr0ne h2
        · exact hr0ne h1.symm

/-! ## The coarsening invariant -/

theorem coarsenRuns_spec (ℓ : Nat) :
    ∀ (n : Nat) (cur : List (List Nat × Trie)), cur.length ≤ n →
      (∀ q ∈ cur, q.1.length = ℓ + 1) →
      ((cur.map Prod.fst).Pairwise LexLt) →
      ((coarsenRuns ℓ cur = [] ↔ cur = []) ∧
        (∀ q' ∈ coarsenRuns ℓ cur, q'.1.length = ℓ) ∧
        (∀ q' ∈ coarsenRuns ℓ cur, ∃ q ∈ cur, q'.1 = q.1.take ℓ) ∧
        (((coarsenRuns ℓ cur).map Prod.fst).Pairwise LexLt) ∧
        ((∀ q ∈ cur, q.2.rootNode.WF) →
          ∀ q' ∈ coarsenRuns ℓ cur, q'.2.rootNode.WF) ∧
        (∀ (v : List Nat) (j : Nat),
          (∃ q' ∈ coarsenRuns ℓ cur, q'.1 <+: v ∧
            q'.2.rootNode.find (v.drop ℓ) = some j) ↔
          (∃ q ∈ cur, q.1 <+: v ∧
            q.2.rootNode.find (v.drop (ℓ + 1)) = some j)) ∧
        (∀ q ∈ cur, ∃ q' ∈ coarsenRuns ℓ cur, q'.1 = q.1.take ℓ ∧
          q'.2.rootNode.getDescendantNodeForPrefix (q.1.drop ℓ) =
            some q.2.rootNode)) := by
  intro n
  induction n with
  | zero =>
      intro cur hle _ _
      have hnil : cur = [] := List.eq_nil_of_length_eq_zero (by omega)
      subst hnil
      simp [coarsenRuns]
  | succ n IHn =>
      intro cur hle hlen hsorted
      cases cur with
      | nil => simp [coarsenRuns]
      | cons pt rest =>
          obtain ⟨p, t⟩ := pt
          have heq : coarsenRuns ℓ ((p, t) :: rest) =
              (p.take ℓ, Trie.ofTries
                (((p, t) :: rest.takeWhile
                    (fun q => q.1.take ℓ == p.take ℓ)).map
                  (fun q => q.1.getD ℓ 0))
                (((p, t) :: rest.takeWhile
                    (fun q => q.1.take ℓ == p.take ℓ)).map Prod.snd)) ::
              coarsenRuns ℓ
                (rest.dropWhile (fun q => q.1.take ℓ == p.take ℓ)) := by
            rw [coarsenRuns]
          set run := (p, t) :: rest.takeWhile (fun q => q.1.take ℓ == p.take ℓ)
            with hrundef
          set rm := rest.dropWhile (fun q => q.1.take ℓ == p.take ℓ) with hrmdef
          set M := Trie.ofTries (run.map (fun q => q.1.getD ℓ 0))
            (run.map Prod.snd) with hMdef
          have hsorted0 := hsorted
          rw [List.map_cons, List.pairwise_cons] at hsorted
          have hp_len : p.length = ℓ + 1 := hlen (p, t) (List.mem_cons_self _ _)
          have hrest_len : ∀ q ∈ rest, q.1.length = ℓ + 1 :=
            fun q hq => hlen q (List.mem_cons_of_mem _ hq)
          have hhead : ∀ q ∈ rest, LexLt p q.1 :=
            fun q hq => hsorted.1 q.1 (List.mem_map_of_mem Prod.fst hq)
          have hsorted_rest : (rest.map Prod.fst).Pairwise LexLt := hsorted.2
          have htk_sub : List.Sublist
              (rest.takeWhile (fun q => q.1.take ℓ == p.take ℓ)) rest :=
            List.takeWhile_sublist _
          have hrun_sub : List.Sublist run ((p, t) :: rest) :=
            List.Sublist.cons₂ _ htk_sub
          have hrm_sub : List.Sublist rm rest := List.dropWhile_sublist _
          have hrun_take : ∀ q ∈ run, q.1.take ℓ = p.take ℓ := by
            intro q hq
            rcases List.mem_cons.mp hq with he | hm
            · rw [he]
            · simpa using List.mem_takeWhile_imp hm
          have hrun_len : ∀ q ∈ run, q.1.length = ℓ + 1 :=
            fun q hq => hlen q (hrun_sub.subset hq)
          have hrun_sorted : (run.map Prod.fst).Pairwise LexLt :=
            hsorted0.sublist (hrun_sub.map Prod.fst)
          have hrm_ne : ∀ q ∈ rm, ¬ (q.1.take ℓ = p.take ℓ) :=
            dropWhile_take_ne ℓ p rest hrest_len hp_len hsorted_rest hhead
          have hrm_len : ∀ q ∈ rm, q.1.length = ℓ + 1 :=
            fun q hq => hrest_len q (hrm_sub.subset hq)
          have hrm_sorted : (rm.map Prod.fst).Pairwise LexLt :=
            hsorted_rest.sublist (hrm_sub.map Prod.fst)
          have hsplit : rest.takeWhile (fun q => q.1.take ℓ == p.take ℓ) ++ rm =
              rest := List.takeWhile_append_dropWhile _ _
          have hpart : ∀ q, q ∈ (p, t) :: rest ↔ (q ∈ run ∨ q ∈ rm) := by
            intro q
            constructor
            · intro hq
              rcases List.mem_cons.mp hq with he | hm
              · exact Or.inl (he ▸ List.mem_cons_self _ _)
              · have hq2 : q ∈ rest.takeWhile
                    (fun q => q.1.take ℓ == p.take ℓ) ++ rm := by
                  rw [hsplit]
                  exact hm
                rcases List.mem_append.mp hq2 with h | h
                · exact Or.inl (List.mem_cons_of_mem _ h)
                · exact Or.inr h
            · intro hq
              rcases hq with h | h
              · exact hrun_sub.subset h
              · exact List.mem_cons_of_mem _ (hrm_sub.subset h)
          have hkeys_pairwise :
              (run.map (fun q => q.1.getD ℓ 0)).Pairwise (· < ·) := by
            rw [List.pairwise_map]
            rw [List.pairwise_map] at hrun_sorted
            refine List.Pairwise.imp_of_mem ?_ hrun_sorted
            intro q q' hq hq' hlex
            exact LexLt.getD_last_of_take_eq hlex (hrun_len q hq)
              (hrun_len q' hq')
              ((hrun_take q hq).trans (hrun_take q' hq').symm)
          have hzs : (run.map (fun q => q.1.getD ℓ 0)).zip (run.map Prod.snd) =
              run.map (fun q => (q.1.getD ℓ 0, q.2)) := List.zip_map' _ _ _
          have hzskeys : ((run.map (fun q => (q.1.getD ℓ 0, q.2))).map
              Prod.fst).Nodup := by
            rw [List.map_map]
            exact (hkeys_pairwise.imp Nat.ne_of_lt : _)
          have hfold : M.rootNode =
              (run.map (fun q => (q.1.getD ℓ 0, q.2))).foldl
                (fun r q => r.setChildNode q.1 q.2.rootNode) Node.empty := by
            rw [hMdef, Trie.ofTries, hzs]
          have hF8a : ∀ q ∈ run,
              M.rootNode.getChildNode (q.1.getD ℓ 0) = some q.2.rootNode := by
            intro q hq
            rw [hfold, ofTries_foldl_getChildNode]
            have hx : ((q.1.getD ℓ 0, q.2) : Nat × Trie) ∈
                (run.map (fun q => (q.1.getD ℓ 0, q.2))).reverse :=
              List.mem_reverse.mpr
                (List.mem_map_of_mem (fun q => (q.1.getD ℓ 0, q.2)) hq)
            have hfind := find?_of_unique_pair
              ((run.map (fun q => (q.1.getD ℓ 0, q.2))).reverse)
              (fun y => y.1 == q.1.getD ℓ 0) (q.1.getD ℓ 0, q.2) hx
              (by simp) ?_
            · rw [hfind]
            · intro y hy hpy
              exact eq_of_fst_eq_of_nodup_keys _ hzskeys
                (List.mem_reverse.mp hy) (List.mem_reverse.mp hx)
                (by simpa using hpy)
          have hF8b : ∀ b, (∀ q ∈ run, q.1.getD ℓ 0 ≠ b) →
              M.rootNode.getChildNode b = none := by
            intro b hb
            rw [hfold, ofTries_foldl_getChildNode]
            have hnone : ((run.map (fun q => (q.1.getD ℓ 0, q.2))).reverse).find?
                (fun y => y.1 == b) = none := by
              rw [List.find?_eq_none]
              intro y hy
              obtain ⟨q', hq', he⟩ :=
                List.mem_map.mp (List.mem_reverse.mp hy)
              rw [← he]
              simpa using hb q' hq'
            rw [hnone]
            rfl
          have hF9 : M.rootNode.stringIndex = none := by
            rw [hfold, ofTries_foldl_stringIndex]
            rfl
          have hF10 : (∀ q ∈ (p, t) :: rest, q.2.rootNode.WF) →
              M.rootNode.WF := by
            intro hall
            rw [hfold]
            refine ofTries_foldl_wf _ _ Node.WF.empty ?_
            intro y hy
            obtain ⟨q', hq', he⟩ := List.mem_map.mp hy
            rw [← he]
            exact hall q' (hrun_sub.subset hq')
          have hrunsem : ∀ (v : List Nat) (j : Nat),
              (p.take ℓ <+: v ∧ M.rootNode.find (v.drop ℓ) = some j) ↔
              (∃ q ∈ run, q.1 <+: v ∧
                q.2.rootNode.find (v.drop (ℓ + 1)) = some j) := by
            intro v j
            constructor
            · rintro ⟨htakepre, hfM⟩
              obtain ⟨v', hv'⟩ := htakepre
              have hvdrop : v.drop ℓ = v' := by
                rw [← hv', List.drop_append_of_le_length
                  (by rw [take_length_of_succ p ℓ hp_len])]
                rw [show (p.take ℓ).drop ℓ = [] from
                  List.drop_eq_nil_of_le (by rw [take_length_of_succ p ℓ hp_len])]
                rfl
              cases hv'' : v' with
              | nil =>
                  rw [hvdrop, hv''] at hfM
                  rw [Node.find_nil, hF9] at hfM
                  cases hfM
              | cons g w =>
                  rw [hvdrop, hv''] at hfM
                  rw [Node.find_cons] at hfM
                  cases hgc : M.rootNode.getChildNode g with
                  | none => rw [hgc] at hfM; cases hfM
                  | some c =>
                      rw [hgc] at hfM
                      have hex : ∃ q ∈ run, q.1.getD ℓ 0 = g := by
                        by_contra hno
                        push_neg at hno
                        rw [hF8b g hno] at hgc
                        cases hgc
                      obtain ⟨q, hq, hkey⟩ := hex
                      have hc : c = q.2.rootNode := by
                        have := hF8a q hq
                        rw [hkey, hgc] at this
                        injection this
                      have hq1 : q.1 = p.take ℓ ++ [g] := by
                        rw [← hkey, ← hrun_take q hq]
                        exact (take_append_getD q.1 ℓ (hrun_len q hq)).symm
                      have hveq : v = q.1 ++ w := by
                        rw [hq1, ← hv', hv'']
                        simp
                      refine ⟨q, hq, ⟨w, hveq.symm⟩, ?_⟩
                      have hdrop1 : v.drop (ℓ + 1) = w := by
                        rw [hveq, List.drop_append_of_le_length
                          (by rw [hrun_len q hq]),
                          List.drop_eq_nil_of_le (by rw [hrun_len q hq])]
                        rfl
                      rw [hdrop1, ← hc]
                      exact hfM
            · rintro ⟨q, hq, hqpre, hfq⟩
              obtain ⟨w, hw⟩ := hqpre
              have hq1 : q.1 = q.1.take ℓ ++ [q.1.getD ℓ 0] :=
                (take_append_getD q.1 ℓ (hrun_len q hq)).symm
              constructor
              · rw [← hrun_take q hq]
                exact (List.take_prefix ℓ q.1).trans ⟨w, hw⟩
              · have hvdrop : v.drop ℓ = q.1.getD ℓ 0 :: v.drop (ℓ + 1) := by
                  rw [← hw]
                  rw [List.drop_append_of_le_length (by rw [hrun_len q hq]; omega),
                    List.drop_append_of_le_length (by rw [hrun_len q hq]),
                    drop_of_length_succ q.1 ℓ (hrun_len q hq),
                    List.drop_eq_nil_of_le (by rw [hrun_len q hq])]
                  rfl
                rw [hvdrop, Node.find_cons, hF8a q hq]
                have hdrop1 : v.drop (ℓ + 1) = w := by
                  rw [← hw, List.drop_append_of_le_length
                    (by rw [hrun_len q hq]),
                    List.drop_eq_nil_of_le (by rw [hrun_len q hq])]
                  rfl
                rw [hdrop1] at hfq ⊢
                exact hfq
          have hrm_le : rm.length ≤ n := by
            have h1 : rm.length ≤ rest.length := hrm_sub.length_le
            have h2 : ((p, t) :: rest).length ≤ n + 1 := hle
            simp only [List.length_cons] at h2
            omega
          have IHrm := IHn rm hrm_le hrm_len hrm_sorted
          rw [heq]
          refine ⟨?_, ?_, ?_, ?_, ?_, ?_, ?_⟩
          · simp
          · intro q' hq'
            rcases List.mem_cons.mp hq' with he | hm
            · rw [he]
              exact take_length_of_succ p ℓ hp_len
            · exact IHrm.2.1 q' hm
          · intro q' hq'
            rcases List.mem_cons.mp hq' with he | hm
            · exact ⟨(p, t), List.mem_cons_self _ _, by rw [he]⟩
            · obtain ⟨q, hq, hqe⟩ := IHrm.2.2.1 q' hm
              exact ⟨q, (hpart q).mpr (Or.inr hq), hqe⟩
          · rw [List.map_cons, List.pairwise_cons]
            refine ⟨?_, IHrm.2.2.2.1⟩
            intro P' hP'
            obtain ⟨q', hq', he⟩ := List.mem_map.mp hP'
            obtain ⟨q, hq, hqe⟩ := IHrm.2.2.1 q' hq'
            rw [← he, hqe]
            have hlex : LexLt p q.1 := hhead q (hrm_sub.subset hq)
            rcases LexLt.take_of_eq_length hlex
              (by rw [hp_len, hrm_len q hq]) ℓ with h | h
            · exact h
            · exact absurd h.symm (hrm_ne q hq)
          · intro hall q' hq'
            rcases List.mem_cons.mp hq' with he | hm
            · rw [he]
              exact hF10 hall
            · exact IHrm.2.2.2.2.1
                (fun q hq => hall q ((hpart q).mpr (Or.inr hq))) q' hm
          · intro v j
            constructor
            · rintro ⟨q', hq', hpre, hfind⟩
              rcases List.mem_cons.mp hq' with he | hm
              · have := (hrunsem v j).mp ⟨by rw [he] at hpre; exact hpre,
                  by rw [he] at hfind; exact hfind⟩
                obtain ⟨q, hq, h1, h2⟩ := this
                exact ⟨q, (hpart q).mpr (Or.inl hq), h1, h2⟩
              · obtain ⟨q, hq, h1, h2⟩ :=
                  (IHrm.2.2.2.2.2.1 v j).mp ⟨q', hm, hpre, hfind⟩
                exact ⟨q, (hpart q).mpr (Or.inr hq), h1, h2⟩
            · rintro ⟨q, hq, hpre, hfind⟩
              rcases (hpart q).mp hq with hqrun | hqrm
              · have := (hrunsem v j).mpr ⟨q, hqrun, hpre, hfind⟩
                exact ⟨(p.take ℓ, M), List.mem_cons_self _ _, this.1, this.2⟩
              · obtain ⟨q', hq', h1, h2⟩ :=
                  (IHrm.2.2.2.2.2.1 v j).mpr ⟨q, hqrm, hpre, hfind⟩
                exact ⟨q', List.mem_cons_of_mem _ hq', h1, h2⟩
          · intro q hq
            rcases (hpart q).mp hq with hqrun | hqrm
            · refine ⟨(p.take ℓ, M), List.mem_cons_self _ _,
                (hrun_take q hqrun).symm, ?_⟩
              rw [drop_of_length_succ q.1 ℓ (hrun_len q hqrun)]
              rw [Node.getDescendantNodeForPrefix_cons, hF8a q hqrun]
              rfl
            · obtain ⟨q', hq', h1, h2⟩ := IHrm.2.2.2.2.2.2 q hqrm
              exact ⟨q', List.mem_cons_of_mem _ hq', h1, h2⟩

theorem coarsenN_spec :
    ∀ (r : Nat) (cur : List (List Nat × Trie)),
      cur ≠ [] → (∀ q ∈ cur, q.1.length = r) →
      ((cur.map Prod.fst).Pairwise LexLt) →
      (∀ q ∈ cur, q.2.rootNode.WF) →
      ((coarsenN r cur).length = 1 ∧
        ((coarsenN r cur).headD ([], Trie.empty)).2.rootNode.WF ∧
        (∀ (v : List Nat) (j : Nat),
          ((coarsenN r cur).headD ([], Trie.empty)).2.rootNode.find v =
              some j ↔
            ∃ q ∈ cur, q.1 <+: v ∧ q.2.rootNode.find (v.drop r) = some j) ∧
        (∀ q ∈ cur,
          ((coarsenN r cur).headD
            ([], Trie.empty)).2.rootNode.getDescendantNodeForPrefix q.1 =
              some q.2.rootNode)) := by
  intro r
  induction r with
  | zero =>
      intro cur hne hlen hsorted hwf
      cases cur with
      | nil => exact absurd rfl hne
      | cons q0 rest =>
          cases rest with
          | cons q1 rest' =>
              exfalso
              rw [List.map_cons, List.map_cons, List.pairwise_cons] at hsorted
              have hlex := hsorted.1 q1.1 (List.mem_cons_self _ _)
              have h0 : q0.1 = [] :=
                List.eq_nil_of_length_eq_zero (hlen q0 (List.mem_cons_self _ _))
              have h1 : q1.1 = [] :=
                List.eq_nil_of_length_eq_zero
                  (hlen q1 (List.mem_cons_of_mem _ (List.mem_cons_self _ _)))
              rw [h0, h1] at hlex
              cases hlex
          | nil =>
              have h0 : q0.1 = [] :=
                List.eq_nil_of_length_eq_zero (hlen q0 (List.mem_cons_self _ _))
              refine ⟨rfl, hwf q0 (List.mem_cons_self _ _), ?_, ?_⟩
              · intro v j
                constructor
                · intro hf
                  exact ⟨q0, List.mem_cons_self _ _, h0 ▸ List.nil_prefix,
                    by simpa using hf⟩
                · rintro ⟨q, hq, _, hf⟩
                  have : q = q0 := by
                    rcases List.mem_cons.mp hq with he | hm
                    · exact he
                    · cases hm
                  rw [this] at hf
                  simpa using hf
              · intro q hq
                have : q = q0 := by
                  rcases List.mem_cons.mp hq with he | hm
                  · exact he
                  · cases hm
                rw [this, h0]
                rfl
  | succ r IH =>
      intro cur hne hlen hsorted hwf
      cases cur with
      | nil => exact absurd rfl hne
      | cons pt rest =>
          obtain ⟨p, t⟩ := pt
          have hp_len : p.length = r + 1 := hlen (p, t) (List.mem_cons_self _ _)
          have hstep : coarsenStep ((p, t) :: rest) =
              coarsenRuns r ((p, t) :: rest) := by
            rw [coarsenStep, show p.length - 1 = r by omega]
          have spec := coarsenRuns_spec r ((p, t) :: rest).length
            ((p, t) :: rest) (Nat.le_refl _) hlen hsorted
          set cur' := coarsenRuns r ((p, t) :: rest) with hcur'def
          have hcur'ne : cur' ≠ [] := by
            intro h
            cases spec.1.mp h
          have IH' := IH cur' hcur'ne spec.2.1 spec.2.2.2.1
            (spec.2.2.2.2.1 hwf)
          have hN : coarsenN (r + 1) ((p, t) :: rest) = coarsenN r cur' := by
            rw [coarsenN, hstep]
          rw [hN]
          refine ⟨IH'.1, IH'.2.1, ?_, ?_⟩
          · intro v j
            rw [IH'.2.2.1 v j]
            exact spec.2.2.2.2.2.1 v j
          · intro q hq
            obtain ⟨q', hq', he1, he2⟩ := spec.2.2.2.2.2.2 q hq
            have hreach := IH'.2.2.2 q' hq'
            rw [show q.1 = q.1.take r ++ q.1.drop r from
              (List.take_append_drop r q.1).symm,
              Node.getDescendantNodeForPrefix_append, ← he1, hreach]
            simpa using he2

/-! ## The initial coarsening state versus sequential insertion -/

theorem bucketPairs_eq (strings : List (List Nat)) (L : Nat) :
    bucketPairs strings L =
      ((List.range (256 ^ L)).filter
        (fun b => !decide ((bucketAccum strings L).1 b = []))).map
        (fun b => (digitsOfIndex L b,
          Trie.ofStringIndices strings ((bucketAccum strings L).1 b) L)) := by
  rw [bucketPairs, bucketSortStrings_eq, createBucketTries, List.map_map]
  exact List.zip_map' _ _ _

theorem bucketPairs_len (strings : List (List Nat)) (L : Nat) :
    ∀ q ∈ bucketPairs strings L, q.1.length = L := by
  intro q hq
  rw [bucketPairs_eq] at hq
  obtain ⟨b, _, hbe⟩ := List.mem_map.mp hq
  rw [← hbe]
  exact digitsOfIndex_length L b

theorem bucketPairs_sorted (strings : List (List Nat)) (L : Nat) :
    ((bucketPairs strings L).map Prod.fst).Pairwise LexLt := by
  rw [bucketPairs_eq, List.map_map]
  rw [show (Prod.fst ∘ fun b => (digitsOfIndex L b,
      Trie.ofStringIndices strings ((bucketAccum strings L).1 b) L)) =
    (fun b => digitsOfIndex L b) from rfl]
  rw [List.pairwise_map]
  refine List.Pairwise.imp_of_mem ?_
    (List.Pairwise.filter _ (List.pairwise_lt_range _))
  intro a b ha hb hab
  have hblt : b < 256 ^ L := by
    have := (List.mem_filter.mp hb).1
    simpa using this
  exact lexLt_digitsOfIndex L a b hab hblt

theorem bucketPairs_wf (strings : List (List Nat)) (L : Nat) :
    ∀ q ∈ bucketPairs strings L, q.2.rootNode.WF := by
  intro q hq
  rw [bucketPairs_eq] at hq
  obtain ⟨b, _, hbe⟩ := List.mem_map.mp hq
  rw [← hbe]
  exact Trie.rootNode_wf_ofStringIndices strings _ L

theorem bucketPairs_find_iff (strings : List (List Nat)) (L : Nat)
    (hB : ∀ s ∈ strings, ∀ b ∈ s, b < 256) (v : List Nat) (j : Nat) :
    (∃ q ∈ bucketPairs strings L, q.1 <+: v ∧
      q.2.rootNode.find (v.drop L) = some j) ↔
    (seqLongTrie strings L).rootNode.find v = some j := by
  rw [seqLongTrie, Trie.find_ofStringIndices strings _
    (List.Pairwise.filter _ (List.pairwise_lt_range _)) 0 v j]
  constructor
  · rintro ⟨q, hqmem, hpre, hfind⟩
    rw [bucketPairs_eq] at hqmem
    obtain ⟨b, hbfl, hbe⟩ := List.mem_map.mp hqmem
    have hq1 : q.1 = digitsOfIndex L b := by rw [← hbe]
    have hq2 : q.2 = Trie.ofStringIndices strings
        ((bucketAccum strings L).1 b) L := by rw [← hbe]
    rw [hq2] at hfind
    obtain ⟨hjb, hdropj, hmax⟩ := (Trie.find_ofStringIndices strings _
      (bucketAccum_fst_sorted strings L b) L (v.drop L) j).mp hfind
    have hjdata := (mem_bucketAccum strings L b j).mp hjb
    have hbytesj : ∀ x ∈ strings.getD j [], x < 256 :=
      hB _ (getD_mem_of_lt strings j hjdata.1)
    have hdigb : digitsOfIndex L b = (strings.getD j []).take L := by
      rw [← hjdata.2.2]
      exact digitsOfIndex_bucketIndexOf L _ hjdata.2.1 hbytesj
    have hlenq : q.1.length = L := by rw [hq1, digitsOfIndex_length]
    have htakev : v.take L = q.1 := prefix_take_eq hpre L hlenq
    have hsv : strings.getD j [] = v := by
      have h1 : (strings.getD j []).take L = v.take L := by
        rw [htakev, hq1, hdigb]
      calc strings.getD j []
          = (strings.getD j []).take L ++ (strings.getD j []).drop L :=
            (List.take_append_drop _ _).symm
        _ = v.take L ++ v.drop L := by rw [h1, hdropj]
        _ = v := List.take_append_drop _ _
    refine ⟨?_, by simpa using hsv, ?_⟩
    · rw [List.mem_filter, List.mem_range]
      exact ⟨hjdata.1, by simpa using hjdata.2.1⟩
    · intro k hk hkv
      rw [List.mem_filter, List.mem_range] at hk
      have hlongk : L ≤ (strings.getD k []).length := by simpa using hk.2
      have hskv : strings.getD k [] = v := by simpa using hkv
      have hbk : bucketIndexOf L (strings.getD k []) = b := by
        rw [hskv, ← hsv, hjdata.2.2]
      have hkb : k ∈ (bucketAccum strings L).1 b :=
        (mem_bucketAccum strings L b k).mpr ⟨hk.1, hlongk, hbk⟩
      exact hmax k hkb (by rw [hskv])
  · rintro ⟨hjmem, hjv, hmax⟩
    rw [List.mem_filter, List.mem_range] at hjmem
    have hjN : j < strings.length := hjmem.1
    have hlongj : L ≤ (strings.getD j []).length := by simpa using hjmem.2
    have hsv : strings.getD j [] = v := by simpa using hjv
    have hbytesj : ∀ x ∈ strings.getD j [], x < 256 :=
      hB _ (getD_mem_of_lt strings j hjN)
    have hjb : j ∈ (bucketAccum strings L).1
        (bucketIndexOf L (strings.getD j [])) :=
      (mem_bucketAccum strings L _ j).mpr ⟨hjN, hlongj, rfl⟩
    have hblt := bucketIndexOf_lt L _ hlongj hbytesj
    have hbfl : bucketIndexOf L (strings.getD j []) ∈
        (List.range (256 ^ L)).filter
          (fun b => !decide ((bucketAccum strings L).1 b = [])) := by
      rw [List.mem_filter]
      exact ⟨List.mem_range.mpr hblt,
        by simpa using List.ne_nil_of_mem hjb⟩
    refine ⟨(digitsOfIndex L (bucketIndexOf L (strings.getD j [])),
      Trie.ofStringIndices strings
        ((bucketAccum strings L).1 (bucketIndexOf L (strings.getD j []))) L),
      ?_, ?_, ?_⟩
    · rw [bucketPairs_eq]
      exact List.mem_map_of_mem _ hbfl
    · have hdig : digitsOfIndex L (bucketIndexOf L (strings.getD j [])) =
          v.take L := by
        rw [digitsOfIndex_bucketIndexOf L _ hlongj hbytesj, hsv]
      rw [hdig]
      exact List.take_prefix L v
    · apply (Trie.find_ofStringIndices strings _
        (bucketAccum_fst_sorted strings L _) L (v.drop L) j).mpr
      refine ⟨hjb, by rw [hsv], ?_⟩
      intro k hkb hkdrop
      have hkdata := (mem_bucketAccum strings L _ k).mp hkb
      have hbytesk : ∀ x ∈ strings.getD k [], x < 256 :=
        hB _ (getD_mem_of_lt strings k hkdata.1)
      have htakek : (strings.getD k []).take L =
          (strings.getD j []).take L := by
        rw [← digitsOfIndex_bucketIndexOf L (strings.getD k [])
          hkdata.2.1 hbytesk, hkdata.2.2,
          digitsOfIndex_bucketIndexOf L _ hlongj hbytesj]
      have hskv : strings.getD k [] = v := by
        calc strings.getD k []
            = (strings.getD k []).take L ++ (strings.getD k []).drop L :=
              (List.take_append_drop _ _).symm
          _ = (strings.getD j []).take L ++ v.drop L := by rw [htakek, hkdrop]
          _ = v.take L ++ v.drop L := by rw [hsv]
          _ = v := List.take_append_drop _ _
      apply hmax k
      · rw [List.mem_filter, List.mem_range]
        exact ⟨hkdata.1, by simpa using hkdata.2.1⟩
      · simpa using hskv

theorem bucketPairs_ne_nil (strings : List (List Nat)) (L i : Nat)
    (hiN : i < strings.length) (hlong : L ≤ (strings.getD i []).length)
    (hbytes : ∀ x ∈ strings.getD i [], x < 256) :
    bucketPairs strings L ≠ [] := by
  have hib : i ∈ (bucketAccum strings L).1
      (bucketIndexOf L (strings.getD i [])) :=
    (mem_bucketAccum strings L _ i).mpr ⟨hiN, hlong, rfl⟩
  have hblt := bucketIndexOf_lt L _ hlong hbytes
  have hbfl : bucketIndexOf L (strings.getD i []) ∈
      (List.range (256 ^ L)).filter
        (fun b => !decide ((bucketAccum strings L).1 b = [])) := by
    rw [List.mem_filter]
    exact ⟨List.mem_range.mpr hblt, by simpa using List.ne_nil_of_mem hib⟩
  apply List.ne_nil_of_mem
  rw [bucketPairs_eq]
  exact List.mem_map_of_mem _ hbfl

/-! ## Claim C4 -/

/-- C4, counterexample: the final coarsened trie is *not* structurally
identical (as a node tree) to the sequentially constructed trie for the
bucketed strings — sibling order differs.  For the bucket pairs of
`[[1],[0]]` with `L = 1` (prefix `[0]` holds index 1, prefix `[1]` holds
index 0, in ascending prefix order), the coarsened root lists its children in
key order `0, 1`, while sequential insertion of the same strings lists them
in first-insertion order `1, 0`. -/
theorem claim_c4_cex :
    ¬ (((coarsenN 1 [([0], (⟨Node.mk [] (some 1)⟩ : Trie)),
        ([1], (⟨Node.mk [] (some 0)⟩ : Trie))]).headD
      ([], Trie.empty)).2 = Trie.ofStringsSequential [[1], [0]]) := by
  have he2 : coarsenRuns 0 [([0], (⟨Node.mk [] (some 1)⟩ : Trie)),
      ([1], (⟨Node.mk [] (some 0)⟩ : Trie))] =
      [(([0] : List Nat).take 0, Trie.ofTries
        ((([0], (⟨Node.mk [] (some 1)⟩ : Trie)) ::
          List.takeWhile (fun q => q.1.take 0 == ([0] : List Nat).take 0)
            [([1], (⟨Node.mk [] (some 0)⟩ : Trie))]).map
          (fun q => q.1.getD 0 0))
        ((([0], (⟨Node.mk [] (some 1)⟩ : Trie)) ::
          List.takeWhile (fun q => q.1.take 0 == ([0] : List Nat).take 0)
            [([1], (⟨Node.mk [] (some 0)⟩ : Trie))]).map Prod.snd))] := by
    rw [coarsenRuns]
    rw [show List.dropWhile (fun q => q.1.take 0 == ([0] : List Nat).take 0)
      [([1], (⟨Node.mk [] (some 0)⟩ : Trie))] = [] from rfl]
    rw [coarsenRuns]
  have he : coarsenN 1 [([0], (⟨Node.mk [] (some 1)⟩ : Trie)),
      ([1], (⟨Node.mk [] (some 0)⟩ : Trie))] =
      coarsenRuns 0 [([0], (⟨Node.mk [] (some 1)⟩ : Trie)),
        ([1], (⟨Node.mk [] (some 0)⟩ : Trie))] := rfl
  rw [he, he2]
  intro h
  have h2 := congrArg
    (fun T : Trie => T.rootNode.keysAndChildNodes.map Prod.fst) h
  exact absurd h2 (by decide)

/-- C4, amended: applying the coarsening step `L` times to the non-empty,
same-length-`L`, ascending list of (bucket prefix, bucket trie) pairs leaves
exactly one Trie; each original bucket-trie root is reachable from the final
root along the byte path of its `L`-byte bucket prefix; and the final Trie
answers every `searchPrefix` query with the same result set as the Trie that
sequential construction produces for the bucketed strings. -/
theorem claim_c4_amended (strings : List (List Nat)) (L : Nat) (hL : 0 < L)
    (hB : ∀ s ∈ strings, ∀ b ∈ s, b < 256)
    (hNE : bucketPairs strings L ≠ []) :
    (coarsenN L (bucketPairs strings L)).length = 1 ∧
    (∀ P B, (P, B) ∈ bucketPairs strings L →
      (coarsenedTrie strings L).rootNode.getDescendantNodeForPrefix P =
        some B.rootNode) ∧
    (∀ p j, j ∈ (coarsenedTrie strings L).searchPrefix p ↔
      j ∈ (seqLongTrie strings L).searchPrefix p) := by
  have spec := coarsenN_spec L (bucketPairs strings L) hNE
    (bucketPairs_len strings L) (bucketPairs_sorted strings L)
    (bucketPairs_wf strings L)
  have hct : coarsenedTrie strings L =
      ((coarsenN L (bucketPairs strings L)).headD ([], Trie.empty)).2 := rfl
  refine ⟨spec.1, ?_, ?_⟩
  · intro P B hmem
    rw [hct]
    exact spec.2.2.2 (P, B) hmem
  · intro p j
    have hwfC : (coarsenedTrie strings L).rootNode.WF := by
      rw [hct]
      exact spec.2.1
    have hwfS : (seqLongTrie strings L).rootNode.WF := by
      rw [seqLongTrie]
      exact Trie.rootNode_wf_ofStringIndices strings _ 0
    rw [Trie.mem_searchPrefix_iff hwfC, Trie.mem_searchPrefix_iff hwfS]
    constructor
    · rintro ⟨s, hs⟩
      refine ⟨s, ?_⟩
      rw [← bucketPairs_find_iff strings L hB (p ++ s) j]
      rw [hct] at hs
      exact (spec.2.2.1 (p ++ s) j).mp hs
    · rintro ⟨s, hs⟩
      refine ⟨s, ?_⟩
      rw [hct]
      exact (spec.2.2.1 (p ++ s) j).mpr
        ((bucketPairs_find_iff strings L hB (p ++ s) j).mpr hs)

/-- C4 witness. -/
theorem claim_c4_witness :
    (coarsenN 1 (bucketPairs [[0, 1], [1, 0]] 1)).length = 1 ∧
    (∀ P B, (P, B) ∈ bucketPairs [[0, 1], [1, 0]] 1 →
      (coarsenedTrie [[0, 1], [1, 0]] 1).rootNode.getDescendantNodeForPrefix
        P = some B.rootNode) ∧
    (5 ∈ (coarsenedTrie [[0, 1], [1, 0]] 1).searchPrefix [0] ↔
      5 ∈ (seqLongTrie [[0, 1], [1, 0]] 1).searchPrefix [0]) := by
  have h := claim_c4_amended [[0, 1], [1, 0]] 1 (by decide) (by decide)
    (bucketPairs_ne_nil [[0, 1], [1, 0]] 1 0 (by decide) (by decide)
      (by decide))
  exact ⟨h.1, h.2.1, h.2.2 [0] 5⟩
